import Mathlib

/-!
Verification of the job-evaluator repository core: a shallow embedding in
Lean 4 of the evaluation task queue (`src/background/service-worker.ts`),
the provider client (`src/lib/llm.ts`) and its JSON repair pipeline, with
theorems settling the specification claims.

JavaScript strings are modelled as `List Char`, JavaScript numbers as the
type `JsNum` (rationals extended with NaN and the two infinities; JSON
never produces non-finite values, but arbitrary runtime values can carry
them), and JavaScript values reachable in this code as `JsVal`.
-/

set_option maxRecDepth 4096

namespace JobEval

/-- Model of a JavaScript number: a rational, NaN, or an infinity. -/
inductive JsNum : Type where
  | nan : JsNum
  | posInf : JsNum
  | negInf : JsNum
  | num : ℚ → JsNum
deriving DecidableEq, Repr

/-- Model of `Math.min` on two arguments: NaN-propagating minimum. -/
def jsMin : JsNum → JsNum → JsNum
  | JsNum.nan, _ => JsNum.nan
  | _, JsNum.nan => JsNum.nan
  | JsNum.negInf, _ => JsNum.negInf
  | _, JsNum.negInf => JsNum.negInf
  | JsNum.posInf, b => b
  | a, JsNum.posInf => a
  | JsNum.num a, JsNum.num b => JsNum.num (min a b)

/-- Model of `Math.max` on two arguments: NaN-propagating maximum. -/
def jsMax : JsNum → JsNum → JsNum
  | JsNum.nan, _ => JsNum.nan
  | _, JsNum.nan => JsNum.nan
  | JsNum.posInf, _ => JsNum.posInf
  | _, JsNum.posInf => JsNum.posInf
  | JsNum.negInf, b => b
  | a, JsNum.negInf => a
  | JsNum.num a, JsNum.num b => JsNum.num (max a b)

/-- Model of a JavaScript value as reachable in the parsed-result code:
`undefined`, `null`, booleans, numbers, strings, arrays, and plain objects
(field lists with unique keys, insertion-ordered, as produced by
`JSON.parse` and object literals). -/
inductive JsVal : Type where
  | vUndef : JsVal
  | vNull : JsVal
  | vBool : Bool → JsVal
  | vNum : JsNum → JsVal
  | vStr : List Char → JsVal
  | vArr : List JsVal → JsVal
  | vObj : List (List Char × JsVal) → JsVal

open JsVal

/-- Assignment `obj[key] = value` on an insertion-ordered field list:
replaces in place when the key exists, else appends (JavaScript object
semantics). -/
def objInsert (fields : List (List Char × JsVal)) (k : List Char) (v : JsVal) :
    List (List Char × JsVal) :=
  match fields with
  | [] => [(k, v)]
  | (k0, v0) :: rest =>
      if k0 = k then (k0, v) :: rest else (k0, v0) :: objInsert rest k v

/-- Lookup of a key in a field list (first match; keys are unique by
construction via `objInsert`). -/
def objLookup (fields : List (List Char × JsVal)) (k : List Char) : Option JsVal :=
  match fields with
  | [] => none
  | (k0, v0) :: rest => if k0 = k then some v0 else objLookup rest k

/-- Property access `v[key]`: `undefined` on missing keys and on
non-object values (the code only accesses fields of objects or of
primitives, never of `null`/`undefined`). -/
def jsGet (v : JsVal) (k : List Char) : JsVal :=
  match v with
  | vObj fields => (objLookup fields k).getD vUndef
  | _ => vUndef

/-- Test `key in v` for objects (the `'verdict' in parsed` check). -/
def jsHasKey (v : JsVal) (k : List Char) : Bool :=
  match v with
  | vObj fields => (objLookup fields k).isSome
  | _ => false

mutual
/-- Decidable equality for `JsVal` (structural; `===` on the literals the
code compares is string comparison, which this subsumes). -/
def JsVal.beq : JsVal → JsVal → Bool
  | vUndef, vUndef => true
  | vNull, vNull => true
  | vBool a, vBool b => a = b
  | vNum a, vNum b => a = b
  | vStr a, vStr b => a = b
  | vArr a, vArr b => JsVal.beqList a b
  | vObj a, vObj b => JsVal.beqFields a b
  | _, _ => false

/-- Elementwise equality test for lists of `JsVal`. -/
def JsVal.beqList : List JsVal → List JsVal → Bool
  | [], [] => true
  | x :: xs, y :: ys => JsVal.beq x y && JsVal.beqList xs ys
  | _, _ => false

/-- Elementwise equality test for field lists. -/
def JsVal.beqFields : List (List Char × JsVal) → List (List Char × JsVal) → Bool
  | [], [] => true
  | (k1, v1) :: xs, (k2, v2) :: ys => k1 = k2 && JsVal.beq v1 v2 && JsVal.beqFields xs ys
  | _, _ => false
end

mutual
theorem JsVal.beq_correct : ∀ a b : JsVal, JsVal.beq a b = true ↔ a = b
  | vUndef, b => by cases b <;> simp [JsVal.beq]
  | vNull, b => by cases b <;> simp [JsVal.beq]
  | vBool x, b => by cases b <;> simp [JsVal.beq]
  | vNum x, b => by cases b <;> simp [JsVal.beq]
  | vStr x, b => by cases b <;> simp [JsVal.beq]
  | vArr xs, b => by
      cases b <;> simp [JsVal.beq]
      exact JsVal.beqList_correct xs _
  | vObj xs, b => by
      cases b <;> simp [JsVal.beq]
      exact JsVal.beqFields_correct xs _

theorem JsVal.beqList_correct : ∀ a b : List JsVal, JsVal.beqList a b = true ↔ a = b
  | [], b => by cases b <;> simp [JsVal.beqList]
  | x :: xs, b => by
      cases b with
      | nil => simp [JsVal.beqList]
      | cons y ys =>
          simp [JsVal.beqList, JsVal.beq_correct x y, JsVal.beqList_correct xs ys]

theorem JsVal.beqFields_correct :
    ∀ a b : List (List Char × JsVal), JsVal.beqFields a b = true ↔ a = b
  | [], b => by cases b <;> simp [JsVal.beqFields]
  | (k, v) :: xs, b => by
      cases b with
      | nil => simp [JsVal.beqFields]
      | cons y ys =>
          obtain ⟨k2, v2⟩ := y
          simp [JsVal.beqFields, JsVal.beq_correct v v2, JsVal.beqFields_correct xs ys,
            and_assoc]
end

instance : DecidableEq JsVal := fun a b =>
  decidable_of_iff (JsVal.beq a b = true) (JsVal.beq_correct a b)

/-- Normalized evaluation result (the `EvaluationResult` interface of
`src/lib/types.ts`, with field types as the normalization code actually
produces them at runtime: the score can be any JavaScript number, bullets
and pass-through fields can be arbitrary values). -/
structure EvaluationResult : Type where
  score : JsNum
  verdict : List Char
  hardRejectionReason : JsVal
  matchBullets : List JsVal
  riskBullets : List JsVal
  bestResumeLabel : JsVal
  explanation : List Char
  extraInfo : JsVal
deriving DecidableEq

/-- Nullish coalescing `x ?? null`. -/
def orNull (v : JsVal) : JsVal :=
  match v with
  | vUndef => vNull
  | vNull => vNull
  | x => x

/-- The verdict string `worth`. -/
def worthStr : List Char := 'w' :: 'o' :: 'r' :: 't' :: 'h' :: []

/-- The verdict string `maybe`. -/
def maybeStr : List Char := 'm' :: 'a' :: 'y' :: 'b' :: 'e' :: []

/-- The verdict string `not_worth`. -/
def notWorthStr : List Char := "not_worth".data

/-- Shallow embedding of `normalizeResult` (src/lib/llm.ts lines 213-227):
verdict coerced to one of the three enumerated strings, score clamped by
`Math.max(0, Math.min(100, score))` when it is a number and defaulted to
50 otherwise, arrays defaulted to empty, nullish optionals to null. -/
def normalizeResult (raw : JsVal) : EvaluationResult :=
  let rawVerdict := jsGet raw "verdict".data
  let verdict : List Char :=
    match rawVerdict with
    | vStr s => if s = worthStr ∨ s = maybeStr ∨ s = notWorthStr then s else maybeStr
    | _ => maybeStr
  { score :=
      match jsGet raw "score".data with
      | vNum n => jsMax (JsNum.num 0) (jsMin (JsNum.num 100) n)
      | _ => JsNum.num 50
    verdict := verdict
    hardRejectionReason := orNull (jsGet raw "hardRejectionReason".data)
    matchBullets :=
      match jsGet raw "matchBullets".data with
      | vArr xs => xs
      | _ => []
    riskBullets :=
      match jsGet raw "riskBullets".data with
      | vArr xs => xs
      | _ => []
    bestResumeLabel := orNull (jsGet raw "bestResumeLabel".data)
    explanation :=
      match jsGet raw "explanation".data with
      | vStr s => s
      | _ => []
    extraInfo := orNull (jsGet raw "extraInfo".data) }

/-- A normalized score lies in `[0,100]` when it is a plain rational in
that interval. -/
def scoreInRange (s : JsNum) : Prop :=
  ∃ q : ℚ, s = JsNum.num q ∧ 0 ≤ q ∧ q ≤ 100

/-- A raw result whose score field is NaN (`typeof NaN === 'number'`, so
the clamping branch runs, and `Math.max(0, Math.min(100, NaN))` is NaN). -/
def rawNanScore : JsVal :=
  vObj [("score".data, vNum JsNum.nan), ("verdict".data, vStr worthStr)]

/-- Claim C5 counterexample: on a raw result with score NaN, the
normalized score is NaN, which does not lie in `[0,100]`; the claim that
the normalized score always lies in `[0,100]` including for NaN inputs is
false. -/
theorem normalizeResult_score_claim_counterexample :
    (normalizeResult rawNanScore).score = JsNum.nan ∧
      ¬ scoreInRange (normalizeResult rawNanScore).score := by
  refine ⟨rfl, ?_⟩
  rintro ⟨q, hq, -⟩
  rw [show (normalizeResult rawNanScore).score = JsNum.nan from rfl] at hq
  exact JsNum.noConfusion hq

/-- Claim C5 (amended): for every raw parsed result, a finite numeric
score is clamped by `max 0 (min 100 ·)` and hence lies in `[0,100]`, an
absent or non-numeric score yields exactly 50, an infinite score clamps
to the matching endpoint, and a NaN score propagates as NaN. -/
theorem normalizeResult_score_spec (raw : JsVal) :
    (∀ q : ℚ, jsGet raw "score".data = vNum (JsNum.num q) →
        (normalizeResult raw).score = JsNum.num (max 0 (min 100 q)) ∧
          scoreInRange (normalizeResult raw).score) ∧
    ((∀ n : JsNum, jsGet raw "score".data ≠ vNum n) →
        (normalizeResult raw).score = JsNum.num 50) ∧
    (jsGet raw "score".data = vNum JsNum.posInf →
        (normalizeResult raw).score = JsNum.num 100) ∧
    (jsGet raw "score".data = vNum JsNum.negInf →
        (normalizeResult raw).score = JsNum.num 0) ∧
    (jsGet raw "score".data = vNum JsNum.nan →
        (normalizeResult raw).score = JsNum.nan) := by
  refine ⟨?_, ?_, ?_, ?_, ?_⟩
  · intro q h
    have hs : (normalizeResult raw).score = JsNum.num (max 0 (min 100 q)) := by
      simp only [normalizeResult, h, jsMin, jsMax]
    refine ⟨hs, max 0 (min 100 q), hs, le_max_left _ _, ?_⟩
    exact max_le (by norm_num) (min_le_left _ _)
  · intro h
    rcases hv : jsGet raw "score".data with _ | _ | b | n | s | xs | fs <;>
      simp only [normalizeResult, hv]
    exact absurd hv (h n)
  · intro h; simp only [normalizeResult, h, jsMin, jsMax]; norm_num
  · intro h; simp only [normalizeResult, h, jsMin, jsMax]
  · intro h; simp only [normalizeResult, h, jsMin, jsMax]

/-- Witness for the amended claim C5 at concrete inputs: a score of 250
clamps to 100 and is in range, and a missing score yields 50. -/
theorem normalizeResult_score_spec_witness :
    scoreInRange (normalizeResult (vObj [("score".data, vNum (JsNum.num 250))])).score ∧
      (normalizeResult (vObj [("verdict".data, vStr worthStr)])).score = JsNum.num 50 :=
  ⟨((normalizeResult_score_spec (vObj [("score".data, vNum (JsNum.num 250))])).1
      250 rfl).2,
    (normalizeResult_score_spec (vObj [("verdict".data, vStr worthStr)])).2.1
      (fun _ h => JsVal.noConfusion h)⟩

/-- Claim C6: a verdict that is one of the three enumerated strings passes
through normalization unchanged, and any other value (other string or
non-string) is coerced to `maybe`. -/
theorem normalizeResult_verdict_spec (raw : JsVal) :
    (∀ s : List Char, jsGet raw "verdict".data = vStr s →
        ((s = worthStr ∨ s = maybeStr ∨ s = notWorthStr) →
            (normalizeResult raw).verdict = s) ∧
        (¬ (s = worthStr ∨ s = maybeStr ∨ s = notWorthStr) →
            (normalizeResult raw).verdict = maybeStr)) ∧
    ((∀ s : List Char, jsGet raw "verdict".data ≠ vStr s) →
        (normalizeResult raw).verdict = maybeStr) := by
  constructor
  · intro s h
    constructor
    · intro hmem
      simp only [normalizeResult, h, if_pos hmem]
    · intro hmem
      simp only [normalizeResult, h, if_neg hmem]
  · intro h
    rcases hv : jsGet raw "verdict".data with _ | _ | b | n | s | xs | fs <;>
      simp only [normalizeResult, hv]
    exact absurd hv (h s)

/-- Witness for claim C6 at concrete inputs: the verdict `worth` passes
through unchanged and the verdict `banana` is coerced to `maybe`. -/
theorem normalizeResult_verdict_spec_witness :
    (normalizeResult (vObj [("verdict".data, vStr worthStr)])).verdict = worthStr ∧
      (normalizeResult (vObj [("verdict".data, vStr "banana".data)])).verdict = maybeStr :=
  ⟨((normalizeResult_verdict_spec (vObj [("verdict".data, vStr worthStr)])).1
      worthStr rfl).1 (Or.inl rfl),
    ((normalizeResult_verdict_spec (vObj [("verdict".data, vStr "banana".data)])).1
      "banana".data rfl).2 (by decide)⟩

/-! ## Provider configuration and rotation (service-worker.ts, llm.ts) -/

/-- The six LLM providers (`ApiProvider` in src/lib/types.ts). -/
inductive ApiProvider : Type where
  | ollama : ApiProvider
  | openai : ApiProvider
  | anthropic : ApiProvider
  | openrouter : ApiProvider
  | google : ApiProvider
  | groq : ApiProvider
deriving DecidableEq, Repr

/-- JavaScript regexp whitespace characters relevant to `String.trim`. -/
def isJsWs (c : Char) : Bool :=
  c = ' ' || c = '\t' || c = '\n' || c = '\r' ||
    c = Char.ofNat 11 || c = Char.ofNat 12 || c = Char.ofNat 160

/-- Model of `String.prototype.trim`. -/
def jsTrim (s : List Char) : List Char :=
  ((s.dropWhile isJsWs).reverse.dropWhile isJsWs).reverse

/-- The slice of the settings record read by the queue (per-provider
stored keys, the default provider, the optional user-narrowed active
subset). -/
structure Settings : Type where
  apiKeys : ApiProvider → Option (List Char)
  apiProvider : ApiProvider
  activeProviders : Option (List ApiProvider)

/-- Test from `getConfiguredProviders`: a provider has a usable key when
it is ollama, or its stored key is present and nonempty after trimming
(`p === 'ollama' || !!(settings.apiKeys[p] && settings.apiKeys[p].trim())`). -/
def hasKey (s : Settings) (p : ApiProvider) : Bool :=
  p = ApiProvider.ollama ||
    (match s.apiKeys p with
     | some k => !(k = []) && !(jsTrim k = [])
     | none => false)

/-- The fixed scan order of `getConfiguredProviders`. -/
def allProviders : List ApiProvider :=
  [ApiProvider.ollama, ApiProvider.openai, ApiProvider.anthropic,
    ApiProvider.openrouter, ApiProvider.google, ApiProvider.groq]

/-- Shallow embedding of `getConfiguredProviders` (service-worker.ts lines
124-139): prefer the user-narrowed active subset filtered to providers
with keys; otherwise scan all providers for keys; fall back to the default
provider if the scan is empty. -/
def getConfiguredProviders (s : Settings) : List ApiProvider :=
  let scan : List ApiProvider := allProviders.filter (hasKey s)
  let base : List ApiProvider := if scan.length > 0 then scan else [s.apiProvider]
  match s.activeProviders with
  | some aps =>
      if aps.length > 0 then
        let fromActive := aps.filter (hasKey s)
        if fromActive.length > 0 then fromActive else base
      else base
  | none => base

/-- Shallow embedding of `getNextProvider` (service-worker.ts lines
141-146): advance the round-robin cursor by one modulo the configured list
length and return the provider at the new cursor; `none` models the
`throw` on an empty list. In the source the cursor is always at least -1,
so the JavaScript `%` agrees with the Euclidean `%` used here. -/
def getNextProvider (configured : List ApiProvider) (lastIdx : Int) :
    Option (ApiProvider × Int) :=
  if hlen : configured.length = 0 then none
  else
    let newIdx : Int := (lastIdx + 1) % (configured.length : Int)
    have hpos : (0 : Int) < (configured.length : Int) := by
      exact_mod_cast Nat.pos_of_ne_zero hlen
    have hnn : 0 ≤ newIdx := Int.emod_nonneg _ (by exact_mod_cast hlen)
    have hlt : newIdx < (configured.length : Int) := Int.emod_lt_of_pos _ hpos
    some (configured.get ⟨newIdx.toNat, by omega⟩, newIdx)

/-! ## HTTP failure classification (llm.ts `evaluateJob`) -/

/-- The message thrown for a 401 response on a hosted provider. -/
def invalidKeyMsg : List Char := "Invalid API key.".data

/-- The message thrown for a 429 response. -/
def rateLimitedMsg : List Char := "Rate limited.".data

/-- The message thrown when the local ollama endpoint is unreachable
(status 0 or opaque response). -/
def couldNotReachOllamaMsg : List Char :=
  "Could not reach Ollama. Is it running? (e.g. ollama serve or Docker.)".data

/-- The message thrown when ollama answers 401/403 (its own CORS policy
rejecting the extension). -/
def ollamaCorsMsg : List Char :=
  ("Ollama rejected the request (CORS). Quit the Ollama app completely, " ++
    "then in a terminal run: OLLAMA_ORIGINS=* ollama serve").data

/-- Shallow embedding of the non-ok response handling of `evaluateJob`
(llm.ts lines 358-370 for the OpenAI-compatible branch, including ollama;
lines 273-275 and 312-314 for the anthropic and google branches, which
contain only the final line and are never reached with `provider =
ollama`): for ollama, status 0 or an opaque response means the service is
unreachable and 401/403 means its CORS policy rejected the call; for every
provider, 401 maps to the invalid-key message, 429 to the rate-limited
message, and any other status to the response body text, or the HTTP
status text when the body is empty. -/
def classifyHttpFailure (provider : ApiProvider) (status : Nat) (opq : Bool)
    (bodyText statusText : List Char) : List Char :=
  if provider = ApiProvider.ollama ∧ (status = 0 ∨ opq) then
    couldNotReachOllamaMsg
  else if provider = ApiProvider.ollama ∧ (status = 403 ∨ status = 401) then
    ollamaCorsMsg
  else if status = 401 then invalidKeyMsg
  else if status = 429 then rateLimitedMsg
  else if bodyText.length > 0 then bodyText
  else statusText

/-- Shallow embedding of the credential guard at the top of `evaluateJob`
(llm.ts lines 240-242): a non-ollama provider with an empty resolved key
fails immediately with the API-key-required message. -/
def apiKeyRequiredCheck (provider : ApiProvider) (apiKey : List Char) :
    Option (List Char) :=
  if provider ≠ ApiProvider.ollama ∧ apiKey = [] then
    some "API key required for this provider.".data
  else none

/-- Claim C8 counterexample: a 403 response from a hosted provider is not
classified as an invalid-credential error; it surfaces as the raw response
body. -/
theorem classifyHttpFailure_claim_counterexample :
    classifyHttpFailure ApiProvider.openai 403 false "Forbidden".data "Forbidden".data
        = "Forbidden".data ∧
      classifyHttpFailure ApiProvider.openai 403 false "Forbidden".data "Forbidden".data
        ≠ invalidKeyMsg := by
  refine ⟨rfl, ?_⟩
  decide

/-- Claim C8 (amended): for a hosted provider, 401 maps to the
invalid-credential message but 403 falls through to the raw body (or the
status text when the body is empty); 429 maps to the rate-limited message
whenever the ollama unreachable check does not fire; only the local
provider gets the could-not-reach classification (status 0 or opaque
response), and its 401/403 yield the CORS configuration message. -/
theorem classifyHttpFailure_spec (provider : ApiProvider) (status : Nat)
    (opq : Bool) (bodyText statusText : List Char) :
    (provider ≠ ApiProvider.ollama → status = 401 →
        classifyHttpFailure provider status opq bodyText statusText = invalidKeyMsg) ∧
    (provider ≠ ApiProvider.ollama → status = 403 →
        classifyHttpFailure provider status opq bodyText statusText =
          if bodyText.length > 0 then bodyText else statusText) ∧
    (¬ (provider = ApiProvider.ollama ∧ (status = 0 ∨ opq = true)) → status = 429 →
        classifyHttpFailure provider status opq bodyText statusText = rateLimitedMsg) ∧
    (provider = ApiProvider.ollama → (status = 0 ∨ opq = true) →
        classifyHttpFailure provider status opq bodyText statusText =
          couldNotReachOllamaMsg) ∧
    (provider = ApiProvider.ollama → ¬ (status = 0 ∨ opq = true) →
        (status = 401 ∨ status = 403) →
        classifyHttpFailure provider status opq bodyText statusText = ollamaCorsMsg) := by
  refine ⟨?_, ?_, ?_, ?_, ?_⟩
  · intro hp hs; subst hs; simp [classifyHttpFailure, hp]
  · intro hp hs; subst hs; simp [classifyHttpFailure, hp]
  · intro hno hs; subst hs
    have hA : ¬ (provider = ApiProvider.ollama ∧ ((429 : Nat) = 0 ∨ opq = true)) :=
      fun h => hno h
    have hB : ¬ (provider = ApiProvider.ollama ∧ ((429 : Nat) = 403 ∨ (429 : Nat) = 401)) := by
      rintro ⟨-, h⟩; omega
    simp only [classifyHttpFailure]
    rw [if_neg hA, if_neg hB]
    simp
  · rintro hp hs; simp [classifyHttpFailure, hp, hs]
  · intro hp hno h
    have hA : ¬ (provider = ApiProvider.ollama ∧ (status = 0 ∨ opq = true)) := by
      rintro ⟨-, h0⟩
      exact hno (by simpa using h0)
    simp only [classifyHttpFailure]
    rw [if_neg hA, if_pos ⟨hp, h.symm⟩]

/-- Witness for the amended claim C8 at concrete inputs: hosted 401 is an
invalid credential, hosted 403 surfaces the body, 429 is rate limited, and
local 403 yields the CORS message. -/
theorem classifyHttpFailure_spec_witness :
    classifyHttpFailure ApiProvider.anthropic 401 false [] [] = invalidKeyMsg ∧
      classifyHttpFailure ApiProvider.google 403 false "boom".data [] =
        (if ("boom".data).length > 0 then "boom".data else ([] : List Char)) ∧
      classifyHttpFailure ApiProvider.groq 429 false [] [] = rateLimitedMsg ∧
      classifyHttpFailure ApiProvider.ollama 403 false [] [] = ollamaCorsMsg :=
  ⟨(classifyHttpFailure_spec ApiProvider.anthropic 401 false [] []).1
      (by decide) rfl,
    (classifyHttpFailure_spec ApiProvider.google 403 false "boom".data []).2.1
      (by decide) rfl,
    (classifyHttpFailure_spec ApiProvider.groq 429 false [] []).2.2.1
      (by decide) rfl,
    (classifyHttpFailure_spec ApiProvider.ollama 403 false [] []).2.2.2.2
      rfl (by decide) (Or.inr rfl)⟩

/-- Settings with no stored credentials, no active subset, and the default
provider set to a hosted provider. -/
def noKeySettings : Settings :=
  { apiKeys := fun _ => none
    apiProvider := ApiProvider.openai
    activeProviders := none }

/-- Claim C9 counterexample: with no stored credentials the configured
list is exactly `[ollama]` — not the default provider, so the claimed
fallback to `settings.apiProvider` does not happen (that branch is dead),
and the assigned provider is ollama, for which the API-key-required error
can never be raised. -/
theorem getConfiguredProviders_claim_counterexample :
    getConfiguredProviders noKeySettings = [ApiProvider.ollama] ∧
      noKeySettings.apiProvider = ApiProvider.openai ∧
      getConfiguredProviders noKeySettings ≠ [noKeySettings.apiProvider] ∧
      apiKeyRequiredCheck ApiProvider.ollama [] = none := by
  refine ⟨rfl, rfl, ?_, rfl⟩
  decide

/-- Claim C9 (amended): the configured-provider list is never empty (the
local provider always counts as configured), so the admission loop's
"no providers" no-op branch and the fallback to the default provider are
both unreachable; with no usable hosted credential every configured
provider is ollama, and an ollama attempt never fails with the
API-key-required error. -/
theorem getConfiguredProviders_spec (s : Settings) :
    getConfiguredProviders s ≠ [] ∧
    ((∀ p, p ≠ ApiProvider.ollama → hasKey s p = false) →
        ∀ p ∈ getConfiguredProviders s, p = ApiProvider.ollama) ∧
    (∀ k, apiKeyRequiredCheck ApiProvider.ollama k = none) := by
  have hkOllama : hasKey s ApiProvider.ollama = true := by simp [hasKey]
  have hmem : ApiProvider.ollama ∈ allProviders.filter (hasKey s) :=
    List.mem_filter.mpr ⟨by decide, hkOllama⟩
  have hscan : (allProviders.filter (hasKey s)).length > 0 :=
    List.length_pos.mpr (List.ne_nil_of_mem hmem)
  refine ⟨?_, ?_, ?_⟩
  · simp only [getConfiguredProviders, if_pos hscan]
    rcases hap : s.activeProviders with _ | aps
    · dsimp only
      exact List.ne_nil_of_mem hmem
    · dsimp only
      by_cases hlen : aps.length > 0
      · rw [if_pos hlen]
        by_cases hfa : (aps.filter (hasKey s)).length > 0
        · rw [if_pos hfa]
          exact List.length_pos.mp hfa
        · rw [if_neg hfa]
          exact List.ne_nil_of_mem hmem
      · rw [if_neg hlen]
        exact List.ne_nil_of_mem hmem
  · intro hnk p hp
    by_contra hne
    have : hasKey s p = true := by
      simp only [getConfiguredProviders, if_pos hscan] at hp
      rcases hap : s.activeProviders with _ | aps <;> rw [hap] at hp <;> dsimp only at hp
      · exact (List.mem_filter.mp hp).2
      · by_cases hlen : aps.length > 0
        · rw [if_pos hlen] at hp
          by_cases hfa : (aps.filter (hasKey s)).length > 0
          · rw [if_pos hfa] at hp
            exact (List.mem_filter.mp hp).2
          · rw [if_neg hfa] at hp
            exact (List.mem_filter.mp hp).2
        · rw [if_neg hlen] at hp
          exact (List.mem_filter.mp hp).2
    rw [hnk p hne] at this
    exact Bool.false_ne_true this
  · intro k
    simp [apiKeyRequiredCheck]

/-- Witness for the amended claim C9 at a concrete input: with no stored
keys the configured list is nonempty and all-ollama, and the guard never
fires for ollama. -/
theorem getConfiguredProviders_spec_witness :
    getConfiguredProviders noKeySettings ≠ [] ∧
      (∀ p ∈ getConfiguredProviders noKeySettings, p = ApiProvider.ollama) ∧
      apiKeyRequiredCheck ApiProvider.ollama "key".data = none :=
  ⟨(getConfiguredProviders_spec noKeySettings).1,
    (getConfiguredProviders_spec noKeySettings).2.1
      (by intro p hp; cases p <;> first | exact absurd rfl hp | rfl),
    (getConfiguredProviders_spec noKeySettings).2.2 "key".data⟩

/-! ## Round-robin rotation fairness (claim C4) -/

/-- The sequence of providers assigned by `n` successive admissions, each
of which calls `getNextProvider` once and feeds the persisted cursor of
the previous call into the next (the queue admits tasks one at a time, so
with no rate-limit failures this is exactly the provider assignment
order). -/
def assignRound (configured : List ApiProvider) : Nat → Int → List ApiProvider
  | 0, _ => []
  | n + 1, lastIdx =>
      match getNextProvider configured lastIdx with
      | none => []
      | some (p, newIdx) => p :: assignRound configured n newIdx

theorem getNextProvider_eq (configured : List ApiProvider)
    (hlen : 0 < configured.length) (lastIdx : Int) :
    getNextProvider configured lastIdx =
      some (configured.get
          ⟨((lastIdx + 1) % (configured.length : Int)).toNat, by
            have hpos : (0 : Int) < (configured.length : Int) := by exact_mod_cast hlen
            have h1 : 0 ≤ (lastIdx + 1) % (configured.length : Int) :=
              Int.emod_nonneg _ (by omega)
            have h2 : (lastIdx + 1) % (configured.length : Int) <
                (configured.length : Int) := Int.emod_lt_of_pos _ hpos
            omega⟩,
        (lastIdx + 1) % (configured.length : Int)) := by
  rw [getNextProvider, dif_neg (Nat.pos_iff_ne_zero.mp hlen)]

theorem assignRound_natCursor (configured : List ApiProvider)
    (hlen : 0 < configured.length) :
    ∀ (n : Nat) (j : Nat),
      assignRound configured n (j : Int) =
        (List.range n).map
          (fun k => configured.get ⟨(j + 1 + k) % configured.length,
            Nat.mod_lt _ hlen⟩) := by
  intro n
  induction n with
  | zero => intro j; simp [assignRound]
  | succ n ih =>
      intro j
      have hcast : ((j : Int) + 1) % (configured.length : Int) =
          (((j + 1) % configured.length : Nat) : Int) := by
        push_cast
        rfl
      rw [assignRound, getNextProvider_eq configured hlen]
      dsimp only
      have htoNat : (((j : Int) + 1) % (configured.length : Int)).toNat =
          (j + 1) % configured.length := by
        rw [hcast]; exact Int.toNat_natCast _
      rw [List.range_succ_eq_map, List.map_cons, List.map_map]
      congr 1
      rw [show ((j : Int) + 1) % (configured.length : Int) =
          (((j + 1) % configured.length : Nat) : Int) from hcast]
      rw [ih ((j + 1) % configured.length)]
      apply List.map_congr_left
      intro k hk
      simp only [Function.comp, List.get_eq_getElem]
      congr 1
      show ((j + 1) % configured.length + 1 + k) % configured.length =
        (j + 1 + Nat.succ k) % configured.length
      rw [Nat.add_assoc, Nat.mod_add_mod]
      congr 1
      omega

theorem assignRound_eq_rotate (configured : List ApiProvider)
    (hlen : 0 < configured.length) (c : Int) :
    assignRound configured configured.length c =
      configured.rotate (((c + 1) % (configured.length : Int)).toNat) := by
  rcases Nat.exists_eq_succ_of_ne_zero (Nat.pos_iff_ne_zero.mp hlen) with ⟨m, hm⟩
  have hpos : (0 : Int) < (configured.length : Int) := by exact_mod_cast hlen
  have h1 : 0 ≤ (c + 1) % (configured.length : Int) := Int.emod_nonneg _ (by omega)
  have h2 : (c + 1) % (configured.length : Int) < (configured.length : Int) :=
    Int.emod_lt_of_pos _ hpos
  obtain ⟨j0, hj0eq, hj0lt⟩ :
      ∃ j0 : Nat, (c + 1) % (configured.length : Int) = (j0 : Int) ∧
        j0 < configured.length :=
    ⟨((c + 1) % (configured.length : Int)).toNat, by omega, by omega⟩
  simp only [hj0eq, Int.toNat_natCast]
  rw [hm, assignRound, getNextProvider_eq configured hlen]
  dsimp only
  simp only [hj0eq, Int.toNat_natCast]
  rw [assignRound_natCursor configured hlen m j0]
  apply List.ext_getElem
  · simp [hm]
  · intro k h1k h2k
    rw [List.getElem_rotate]
    cases k with
    | zero =>
        simp only [List.getElem_cons_zero, List.get_eq_getElem]
        congr 1
        rw [Nat.zero_add, Nat.mod_eq_of_lt hj0lt]
    | succ k1 =>
        simp only [List.getElem_cons_succ, List.getElem_map, List.getElem_range,
          List.get_eq_getElem]
        congr 1
        have : j0 + 1 + k1 = k1 + 1 + j0 := by omega
        rw [this]

/-- Claim C4: with a duplicate-free configured list and any prior cursor
position at least -1, the sequence of `length` successive admissions is a
rotation of the configured list starting at the post-advance cursor: it
has the list's length, assigns each configured provider exactly once and
no other provider at all, and every single `getNextProvider` call advances
the cursor by exactly one modulo the list length. -/
theorem rotation_fairness (configured : List ApiProvider) (c : Int)
    (hnd : configured.Nodup) (hlen : 0 < configured.length) (hc : -1 ≤ c) :
    assignRound configured configured.length c =
        configured.rotate (((c + 1) % (configured.length : Int)).toNat) ∧
      (assignRound configured configured.length c).length = configured.length ∧
      (∀ p ∈ configured, (assignRound configured configured.length c).count p = 1) ∧
      (∀ p, p ∉ configured →
          (assignRound configured configured.length c).count p = 0) ∧
      (∀ lastIdx : Int, ∃ p : ApiProvider,
          getNextProvider configured lastIdx =
            some (p, (lastIdx + 1) % (configured.length : Int))) := by
  have hrot := assignRound_eq_rotate configured hlen c
  have hperm : (assignRound configured configured.length c).Perm configured := by
    rw [hrot]; exact List.rotate_perm _ _
  refine ⟨hrot, ?_, ?_, ?_, ?_⟩
  · exact hperm.length_eq
  · intro p hp
    rw [hperm.count_eq]
    exact List.count_eq_one_of_mem hnd hp
  · intro p hp
    rw [hperm.count_eq]
    exact List.count_eq_zero_of_not_mem hp
  · intro lastIdx
    exact ⟨_, getNextProvider_eq configured hlen lastIdx⟩

/-- Witness for claim C4 at a concrete input: three hosted providers,
cursor at its initial value -1, three admissions — each provider exactly
once, in list order (rotation by 0). -/
theorem rotation_fairness_witness :
    assignRound [ApiProvider.openai, ApiProvider.anthropic, ApiProvider.google] 3 (-1)
        = ([ApiProvider.openai, ApiProvider.anthropic, ApiProvider.google].rotate 0) ∧
      (assignRound [ApiProvider.openai, ApiProvider.anthropic, ApiProvider.google]
          3 (-1)).count ApiProvider.anthropic = 1 := by
  have h := rotation_fairness
    [ApiProvider.openai, ApiProvider.anthropic, ApiProvider.google] (-1)
    (by decide) (by decide) (by decide)
  exact ⟨h.1, h.2.2.1 ApiProvider.anthropic (by decide)⟩

/-! ## Operational model of the evaluation task queue (service-worker.ts)

The queue code is single-threaded JavaScript: state mutations between
`await` points are atomic, and the only suspension points are the `await
getSettings()` inside `tryStartNext`, the provider HTTP call inside
`runEvalTask`, and the 10-second retry timer. The model below is a small-
step machine whose actions are exactly these resumption events. Crucially,
`tryStartNext` checks `inFlight != null` and the queue length *before*
awaiting `getSettings`, and does not re-check after resuming; and
`runEvalTask` assigns `taskStartedAt = Date.now()` at the top of *every*
invocation, including the delayed retry re-invocations, so the elapsed
time it compares against the 2-minute limit is measured from the current
invocation, not from the task's first attempt. -/

/-- The retry delay after a rate-limited attempt (`RATE_LIMIT_RETRY_MS`). -/
def RATE_LIMIT_RETRY_MS : Nat := 10000

/-- The 2-minute limit (`TASK_FAIL_TIMEOUT_MS`). -/
def TASK_FAIL_TIMEOUT_MS : Nat := 2 * 60 * 1000

/-- A queued evaluation task, identified by its job id (the remaining
`EvalTask` fields play no role in the scheduling claims). -/
structure EvalTask : Type where
  jobId : Nat
deriving DecidableEq, Repr

/-- Broadcast lifecycle notifications (`EVALUATION_COMPLETE` carries a
result or an error; `EVALUATION_RATE_LIMITED` carries the retry count). -/
inductive QueueEvent : Type where
  | evalComplete : Nat → Bool → QueueEvent
  | evalRateLimited : Nat → Nat → QueueEvent
deriving DecidableEq, Repr

/-- The module-level mutable state of the service worker, plus bookkeeping
that makes the asynchronous control flow explicit: `suspended` counts
`tryStartNext` invocations that have passed the `inFlight`/queue checks
and are awaiting `getSettings`; `running` lists `runEvalTask` invocations
whose provider call is outstanding (task, assigned provider, retry
attempt); `retryTimers` lists scheduled 10-second retry callbacks; `sent`
records broadcast notifications in order; `now` is wall-clock time in
milliseconds. -/
structure SchedState : Type where
  pendingQueue : List EvalTask
  inFlight : Option (EvalTask × ApiProvider)
  lastProviderIndex : Int
  suspended : Nat
  running : List (EvalTask × ApiProvider × Nat)
  retryTimers : List (EvalTask × ApiProvider × Nat)
  sent : List QueueEvent
  now : Nat
deriving DecidableEq, Repr

/-- The initial module state (`pendingQueue = []`, `inFlight = null`,
`lastProviderIndex = -1`). -/
def initState : SchedState :=
  { pendingQueue := []
    inFlight := none
    lastProviderIndex := -1
    suspended := 0
    running := []
    retryTimers := []
    sent := []
    now := 0 }

/-- The synchronous prefix of `tryStartNext` (lines 150-152): return at
once when a task is in flight or the queue is empty; otherwise suspend at
`await getSettings()`. This prefix runs synchronously inside the submit
handler and inside `done`. -/
def trySyncPrefix (s : SchedState) : SchedState :=
  if s.inFlight.isSome then s
  else if s.pendingQueue.isEmpty then s
  else { s with suspended := s.suspended + 1 }

/-- The tail of `done` (lines 174-187): free the in-flight slot, broadcast
`EVALUATION_COMPLETE`, and run `tryStartNext` (its synchronous prefix). -/
def doneStep (s : SchedState) (jobId : Nat) (success : Bool) : SchedState :=
  trySyncPrefix
    { s with
      inFlight := none
      sent := s.sent ++ [QueueEvent.evalComplete jobId success] }

/-- The resumption events of the queue: a message-handler submit, a
`tryStartNext` resuming from `getSettings` (with the freshly read
settings), an outstanding attempt settling (success, non-rate-limit
failure, or rate-limit failure after `dur` milliseconds measured from that
invocation's start), and a scheduled retry timer firing. -/
inductive SchedAction : Type where
  | submit : EvalTask → SchedAction
  | resumeGetSettings : Settings → SchedAction
  | attemptSucceeds : Nat → Nat → SchedAction
  | attemptFailsOther : Nat → Nat → SchedAction
  | attemptRateLimited : Nat → Nat → SchedAction
  | retryTimerFires : Nat → SchedAction

/-- One scheduler step. `none` models a runtime error or an action that is
not enabled (no such suspended call, no such outstanding attempt): in
particular a resumed `tryStartNext` that finds the queue empty executes
`pendingQueue.shift()!` on an empty array and crashes on the undefined
task, which the model treats as stuck. -/
def step (s : SchedState) : SchedAction → Option SchedState
  | SchedAction.submit t =>
      some (trySyncPrefix { s with pendingQueue := s.pendingQueue ++ [t] })
  | SchedAction.resumeGetSettings settings =>
      if s.suspended = 0 then none
      else
        let s1 := { s with suspended := s.suspended - 1 }
        let configured := getConfiguredProviders settings
        if configured.length = 0 then some s1
        else
          match s1.pendingQueue with
          | [] => none
          | t :: rest =>
              match getNextProvider configured s1.lastProviderIndex with
              | none => none
              | some (p, newIdx) =>
                  some
                    { s1 with
                      pendingQueue := rest
                      lastProviderIndex := newIdx
                      inFlight := some (t, p)
                      running := s1.running ++ [(t, p, 0)] }
  | SchedAction.attemptSucceeds i dur =>
      match s.running.get? i with
      | none => none
      | some (t, _, _) =>
          some (doneStep
            { s with running := s.running.eraseIdx i, now := s.now + dur }
            t.jobId true)
  | SchedAction.attemptFailsOther i dur =>
      match s.running.get? i with
      | none => none
      | some (t, _, _) =>
          some (doneStep
            { s with running := s.running.eraseIdx i, now := s.now + dur }
            t.jobId false)
  | SchedAction.attemptRateLimited i dur =>
      match s.running.get? i with
      | none => none
      | some (t, p, retryAttempt) =>
          let retryCount := retryAttempt + 1
          let s1 :=
            { s with
              running := s.running.eraseIdx i
              now := s.now + dur
              sent := s.sent ++ [QueueEvent.evalRateLimited t.jobId retryCount] }
          if TASK_FAIL_TIMEOUT_MS ≤ dur then
            some (doneStep s1 t.jobId false)
          else
            some { s1 with retryTimers := s1.retryTimers ++ [(t, p, retryCount)] }
  | SchedAction.retryTimerFires i =>
      match s.retryTimers.get? i with
      | none => none
      | some (t, p, retryCount) =>
          some
            { s with
              retryTimers := s.retryTimers.eraseIdx i
              running := s.running ++ [(t, p, retryCount)]
              now := s.now + RATE_LIMIT_RETRY_MS }

/-- Run a sequence of scheduler steps. -/
def exec (s : SchedState) : List SchedAction → Option SchedState
  | [] => some s
  | a :: rest =>
      match step s a with
      | none => none
      | some s1 => exec s1 rest

theorem exec_append (s : SchedState) (as bs : List SchedAction) :
    exec s (as ++ bs) =
      match exec s as with
      | none => none
      | some s1 => exec s1 bs := by
  induction as generalizing s with
  | nil => rfl
  | cons a rest ih =>
      simp only [List.cons_append, exec]
      cases step s a with
      | none => rfl
      | some s1 => exact ih s1

/-- Claim C1 failing trace: two `EVALUATE_JOB` submissions arrive while
the first `tryStartNext` is still awaiting `getSettings`. Both calls
passed the `inFlight == null` check before suspending, neither re-checks
after resuming, so both pop a task and start it: after the two
resumptions, two evaluation attempts are outstanding concurrently and the
single in-flight slot has been overwritten by the second task. -/
theorem tryStartNext_race_two_attempts_in_flight :
    (exec initState
          [SchedAction.submit ⟨1⟩, SchedAction.submit ⟨2⟩,
            SchedAction.resumeGetSettings noKeySettings,
            SchedAction.resumeGetSettings noKeySettings]).map
        (fun s => (s.running, s.inFlight, s.pendingQueue)) =
      some ([(⟨1⟩, ApiProvider.ollama, 0), (⟨2⟩, ApiProvider.ollama, 0)],
        some (⟨2⟩, ApiProvider.ollama), []) := rfl

/-- The retry rounds of a task whose every attempt fails with
`Rate limited.` after 1000 ms: each round is the attempt settling
rate-limited followed by the 10-second retry timer firing. -/
def rlRounds : Nat → List SchedAction
  | 0 => []
  | n + 1 =>
      rlRounds n ++ [SchedAction.attemptRateLimited 0 1000, SchedAction.retryTimerFires 0]

/-- One submission, its admission, and `n` rate-limited retry rounds. -/
def rlTrace (n : Nat) : List SchedAction :=
  [SchedAction.submit ⟨1⟩, SchedAction.resumeGetSettings noKeySettings] ++ rlRounds n

/-- The scheduler state after `n` rate-limited rounds: the task is still
the single outstanding attempt with retry count `n`, the only broadcasts
are the `n` rate-limited progress notifications, and `11n` seconds of
wall-clock time have passed since the task's first attempt started. -/
def rlState (n : Nat) : SchedState :=
  { pendingQueue := []
    inFlight := some (⟨1⟩, ApiProvider.ollama)
    lastProviderIndex := 0
    suspended := 0
    running := [(⟨1⟩, ApiProvider.ollama, n)]
    retryTimers := []
    sent := (List.range n).map (fun k => QueueEvent.evalRateLimited 1 (k + 1))
    now := n * (1000 + RATE_LIMIT_RETRY_MS) }

theorem rlTrace_exec (n : Nat) : exec initState (rlTrace n) = some (rlState n) := by
  induction n with
  | zero => rfl
  | succ n ih =>
      have hsplit : rlTrace (n + 1) =
          rlTrace n ++
            [SchedAction.attemptRateLimited 0 1000, SchedAction.retryTimerFires 0] := by
        simp [rlTrace, rlRounds, List.append_assoc]
      rw [hsplit, exec_append, ih]
      show exec (rlState n)
          [SchedAction.attemptRateLimited 0 1000, SchedAction.retryTimerFires 0] =
        some (rlState (n + 1))
      simp only [exec, step, rlState, List.get?_cons_zero, List.eraseIdx,
        TASK_FAIL_TIMEOUT_MS, RATE_LIMIT_RETRY_MS]
      norm_num
      refine ⟨?_, ?_⟩
      · rw [List.range_succ, List.map_append]
        simp
      · ring

/-- Claim C2 failing behaviour: a task whose every attempt fails with
`Rate limited.` after one second is retried forever. `taskStartedAt` is
reassigned at the top of every `runEvalTask` invocation, including the
10-second-delayed retry re-invocations, so the elapsed time compared
against the 2-minute limit is always the one-second duration of the
current attempt: after any number `n` of rounds the task is still the
outstanding attempt, no terminal `EVALUATION_COMPLETE` notification has
ever been broadcast, and `11n` seconds of wall clock have passed since the
task's first attempt — in particular far beyond 120 seconds. -/
theorem rateLimited_task_retries_forever (n : Nat) :
    exec initState (rlTrace n) = some (rlState n) ∧
      (rlState n).running = [(⟨1⟩, ApiProvider.ollama, n)] ∧
      (∀ e ∈ (rlState n).sent, ∀ jobId ok, e ≠ QueueEvent.evalComplete jobId ok) ∧
      (rlState n).now = n * 11000 := by
  refine ⟨rlTrace_exec n, rfl, ?_, rfl⟩
  intro e he jobId ok
  simp only [rlState, List.mem_map, List.mem_range] at he
  obtain ⟨k, -, hk⟩ := he
  rw [← hk]
  exact fun h => QueueEvent.noConfusion h

/-- Claim C3 failing trace: two submissions race as in the C1 trace, the
first task's attempt fails rate-limited (its 10-second retry is pending
and it is not re-inserted into the queue), and then the second, stale
`tryStartNext` resumption starts the queued second task during the retry
window. -/
theorem queued_task_starts_during_retry_window :
    (exec initState
          [SchedAction.submit ⟨1⟩, SchedAction.submit ⟨2⟩,
            SchedAction.resumeGetSettings noKeySettings,
            SchedAction.attemptRateLimited 0 1000,
            SchedAction.resumeGetSettings noKeySettings]).map
        (fun s => (s.retryTimers, s.running, s.pendingQueue, s.inFlight)) =
      some ([(⟨1⟩, ApiProvider.ollama, 1)], [(⟨2⟩, ApiProvider.ollama, 0)], [],
        some (⟨2⟩, ApiProvider.ollama)) := rfl

/-! ## Reply parsing: strict JSON (the `JSON.parse` calls in llm.ts)

`JSON.parse` is modelled as a strict recursive-descent parser over
`List Char` with a fuel argument bounding nesting depth (the callers pass
`length + 1`, which always suffices because every nesting level consumes
at least one character). JSON numbers are modelled as exact rationals
(JavaScript rounds them to doubles; none of the claims depends on that
rounding). Unescaped control characters below 0x20 inside string literals
are rejected, exactly as in `JSON.parse` — this is what makes a literal
newline inside a string a parse error that the newline-repair stage then
fixes. -/

/-- The single-quote character. -/
def sqChar : Char := Char.ofNat 39

/-- The backtick character. -/
def bqChar : Char := Char.ofNat 96

/-- JSON insignificant whitespace (space, tab, line feed, carriage
return). -/
def isJsonWs (c : Char) : Bool :=
  c = ' ' || c = '\t' || c = '\n' || c = '\r'

/-- Drop leading JSON whitespace. -/
def skipJsonWs (l : List Char) : List Char :=
  l.dropWhile isJsonWs

/-- Value of a hexadecimal digit. -/
def hexVal (c : Char) : Option Nat :=
  if c.isDigit then some (c.toNat - 48)
  else if 'a' ≤ c ∧ c ≤ 'f' then some (c.toNat - 87)
  else if 'A' ≤ c ∧ c ≤ 'F' then some (c.toNat - 55)
  else none

/-- Parse a JSON string body after the opening quote: standard escapes,
`\"u` with four hex digits, and a hard rejection of unescaped control
characters. Returns the decoded content and the rest after the closing
quote. -/
def parseStringBody : List Char → List Char → Option (List Char × List Char)
  | [], _ => none
  | c :: cs, acc =>
      if c = '"' then some (acc.reverse, cs)
      else if c = '\\' then
        match cs with
        | [] => none
        | e :: es =>
            if e = '"' then parseStringBody es ('"' :: acc)
            else if e = '\\' then parseStringBody es ('\\' :: acc)
            else if e = '/' then parseStringBody es ('/' :: acc)
            else if e = 'b' then parseStringBody es (Char.ofNat 8 :: acc)
            else if e = 'f' then parseStringBody es (Char.ofNat 12 :: acc)
            else if e = 'n' then parseStringBody es ('\n' :: acc)
            else if e = 'r' then parseStringBody es ('\r' :: acc)
            else if e = 't' then parseStringBody es ('\t' :: acc)
            else if e = 'u' then
              match es with
              | h1 :: h2 :: h3 :: h4 :: rest =>
                  match hexVal h1, hexVal h2, hexVal h3, hexVal h4 with
                  | some a, some b, some c3, some d =>
                      parseStringBody rest
                        (Char.ofNat (((a * 16 + b) * 16 + c3) * 16 + d) :: acc)
                  | _, _, _, _ => none
              | _ => none
            else none
      else if c.toNat < 32 then none
      else parseStringBody cs (c :: acc)

/-- Value of a digit run read as a natural number. -/
def digitsToNat (ds : List Char) : Nat :=
  ds.foldl (fun a c => a * 10 + (c.toNat - 48)) 0

/-- Parse a JSON number (`-?(0|[1-9][0-9]*)(\.[0-9]+)?([eE][+-]?[0-9]+)?`)
into an exact rational, returning the rest of the input. -/
def parseNumber (l : List Char) : Option (ℚ × List Char) :=
  let (neg, l1) :=
    match l with
    | c :: r => if c = '-' then (true, r) else (false, c :: r)
    | [] => (false, [])
  let intPart : Option (List Char × List Char) :=
    match l1 with
    | c :: r =>
        if c = '0' then
          match r with
          | d :: _ => if d.isDigit then none else some (['0'], r)
          | [] => some (['0'], [])
        else if c.isDigit then
          some (c :: r.takeWhile Char.isDigit, r.dropWhile Char.isDigit)
        else none
    | [] => none
  match intPart with
  | none => none
  | some (intDigits, r1) =>
      let (fracDigits, r2) :=
        match r1 with
        | '.' :: rf =>
            let fd := rf.takeWhile Char.isDigit
            if fd.isEmpty then ([], '.' :: rf) else (fd, rf.dropWhile Char.isDigit)
        | _ => ([], r1)
      if (match r1 with | '.' :: rf => (rf.takeWhile Char.isDigit).isEmpty | _ => false) then
        none
      else
        let expPart : Option (Int × List Char) :=
          match r2 with
          | c :: re =>
              if c = 'e' ∨ c = 'E' then
                let (esign, re2) :=
                  match re with
                  | '+' :: rr => ((1 : Int), rr)
                  | '-' :: rr => ((-1 : Int), rr)
                  | _ => ((1 : Int), re)
                let ed := re2.takeWhile Char.isDigit
                if ed.isEmpty then none
                else some (esign * (digitsToNat ed : Int), re2.dropWhile Char.isDigit)
              else some (0, r2)
          | [] => some (0, [])
        match expPart with
        | none => none
        | some (expVal, r3) =>
            let mantissa : Nat := digitsToNat (intDigits ++ fracDigits)
            let q : ℚ :=
              (if neg then -1 else 1) * (mantissa : ℚ) *
                (10 : ℚ) ^ (expVal - (fracDigits.length : Int))
            some (q, r3)

mutual
/-- Parse one JSON value at the head of the input (no leading
whitespace). -/
def parseValue : Nat → List Char → Option (JsVal × List Char)
  | 0, _ => none
  | _ + 1, [] => none
  | fuel + 1, c :: cs =>
      if c = '{' then
        parseObjectRest fuel (skipJsonWs cs) []
      else if c = '[' then
        parseArrayRest fuel (skipJsonWs cs) []
      else if c = '"' then
        match parseStringBody cs [] with
        | some (str, rest) => some (vStr str, rest)
        | none => none
      else if c = 't' then
        match cs with
        | c1 :: c2 :: c3 :: rest =>
            if c1 = 'r' ∧ c2 = 'u' ∧ c3 = 'e' then some (vBool true, rest) else none
        | _ => none
      else if c = 'f' then
        match cs with
        | c1 :: c2 :: c3 :: c4 :: rest =>
            if c1 = 'a' ∧ c2 = 'l' ∧ c3 = 's' ∧ c4 = 'e' then some (vBool false, rest)
            else none
        | _ => none
      else if c = 'n' then
        match cs with
        | c1 :: c2 :: c3 :: rest =>
            if c1 = 'u' ∧ c2 = 'l' ∧ c3 = 'l' then some (vNull, rest) else none
        | _ => none
      else if c = '-' ∨ c.isDigit then
        match parseNumber (c :: cs) with
        | some (q, rest) => some (vNum (JsNum.num q), rest)
        | none => none
      else none

/-- Parse the members of an object after `{` (whitespace already
skipped), accumulating fields with JavaScript duplicate-key semantics
(later value wins, first position kept). -/
def parseObjectRest : Nat → List Char → List (List Char × JsVal) →
    Option (JsVal × List Char)
  | 0, _, _ => none
  | _ + 1, [], _ => none
  | fuel + 1, c :: cs, acc =>
      if c = '}' ∧ acc.isEmpty then some (vObj [], cs)
      else if c = '"' then
        match parseStringBody cs [] with
        | none => none
        | some (key, r1) =>
            match skipJsonWs r1 with
            | c2 :: r2 =>
                if c2 = ':' then
                  match parseValue fuel (skipJsonWs r2) with
                  | none => none
                  | some (v, r3) =>
                      let acc1 := objInsert acc key v
                      match skipJsonWs r3 with
                      | c4 :: r4 =>
                          if c4 = ',' then parseObjectRest fuel (skipJsonWs r4) acc1
                          else if c4 = '}' then some (vObj acc1, r4)
                          else none
                      | [] => none
                else none
            | [] => none
      else none

/-- Parse the elements of an array after `[` (whitespace already
skipped). -/
def parseArrayRest : Nat → List Char → List JsVal → Option (JsVal × List Char)
  | 0, _, _ => none
  | _ + 1, [], _ => none
  | fuel + 1, c :: cs, acc =>
      if c = ']' ∧ acc.isEmpty then some (vArr [], cs)
      else
        match parseValue fuel (c :: cs) with
        | none => none
        | some (v, r1) =>
            match skipJsonWs r1 with
            | c2 :: r2 =>
                if c2 = ',' then parseArrayRest fuel (skipJsonWs r2) (acc ++ [v])
                else if c2 = ']' then some (vArr (acc ++ [v]), r2)
                else none
            | [] => none
end

/-- Model of `JSON.parse`: parse one value surrounded by insignificant
whitespace; anything left over is a syntax error. -/
def jsonParse (l : List Char) : Option JsVal :=
  let l1 := skipJsonWs l
  match parseValue (l1.length + 1) l1 with
  | some (v, rest) => if (skipJsonWs rest).isEmpty then some v else none
  | none => none

/-! ## Reply cleaning and repair stages (llm.ts lines 70-166) -/

/-- Test for the fence-regex tail `(three backticks)\s*$`. -/
def fenceTail0 (r : List Char) : Bool :=
  match r with
  | b1 :: b2 :: b3 :: rest =>
      b1 = bqChar && b2 = bqChar && b3 = bqChar && rest.all isJsWs
  | _ => false

/-- Test for the fence-regex tail `\n?(three backticks)\s*$`; the greedy
`\n?` prefers to consume a newline. -/
def fenceTailMatches (r : List Char) : Bool :=
  match r with
  | c :: rs => if c = '\n' then fenceTail0 rs || fenceTail0 r else fenceTail0 r
  | [] => fenceTail0 r

/-- The lazy group `([\s\S]*?)` of the fence regex: extend the group one
character at a time, stopping at the earliest position where the tail
matches. -/
def fenceLazyScan : List Char → List Char → Option (List Char)
  | acc, [] => if fenceTailMatches [] then some acc.reverse else none
  | acc, c :: cs =>
      if fenceTailMatches (c :: cs) then some acc.reverse
      else fenceLazyScan (c :: acc) cs

/-- Suffixes of `r` after consuming `k` whitespace characters, for `k`
from the maximal run length down to zero (the backtracking order of a
greedy `\s*`). -/
def wsSuffixesDesc (r : List Char) : List (List Char) :=
  let m := (r.takeWhile isJsWs).length
  (List.range (m + 1)).map (fun i => r.drop (m - i))

/-- Group start positions after the fence-regex prefix
`(three backticks)(?:json)?\s*\n?`, in backtracking preference order
(rightmost alternatives vary fastest; greedy pieces prefer consuming). -/
def fencePrefixStarts (rest : List Char) : List (List Char) :=
  let jsonOpts :=
    if rest.take 4 = ['j', 's', 'o', 'n'] then [rest.drop 4, rest] else [rest]
  jsonOpts.flatMap (fun r1 =>
    (wsSuffixesDesc r1).flatMap (fun r2 =>
      match r2 with
      | '\n' :: rs => [rs, r2]
      | _ => [r2]))

/-- First start position from which the lazy group scan succeeds. -/
def fenceFirstSome : List (List Char) → Option (List Char)
  | [] => none
  | r :: rs =>
      match fenceLazyScan [] r with
      | some g => some g
      | none => fenceFirstSome rs

/-- Model of `cleaned.match(codeFence)` for the anchored regex
`^(fence)(?:json)?\s*\n?([\s\S]*?)\n?(fence)\s*$` (llm.ts line 73),
returning the captured group when the whole string matches. -/
def fenceMatch (s : List Char) : Option (List Char) :=
  match s with
  | b1 :: b2 :: b3 :: rest =>
      if b1 = bqChar ∧ b2 = bqChar ∧ b3 = bqChar then
        fenceFirstSome (fencePrefixStarts rest)
      else none
  | _ => none

/-- The brace-depth scan of llm.ts lines 79-90: position of the brace
closing the object opened at the head (the scan does not track strings, so
a `}` inside a string literal terminates it early). -/
def findObjEnd : List Char → Int → Nat → Option Nat
  | [], _, _ => none
  | c :: cs, depth, i =>
      if c = '{' then findObjEnd cs (depth + 1) (i + 1)
      else if c = '}' then
        if depth - 1 = 0 then some i else findObjEnd cs (depth - 1) (i + 1)
      else findObjEnd cs depth (i + 1)

/-- The object-extraction step of llm.ts lines 77-92: slice from the first
`{` through the brace that balances it; leave the input unchanged when
there is no `{` or no balancing `}`. -/
def braceSlice (s : List Char) : List Char :=
  let pre := s.takeWhile (fun c => c != '{')
  if pre.length = s.length then s
  else
    let suf := s.drop pre.length
    match findObjEnd suf 0 0 with
    | some e => suf.take (e + 1)
    | none => s

/-- Split off a `\s*` run followed by a closing bracket, as matched by the
trailing-comma regex `,(\s*[}\x5d])`. -/
def splitWsBracket (l : List Char) : Option (List Char × Char × List Char) :=
  let ws := l.takeWhile isJsWs
  match l.drop ws.length with
  | b :: cs => if b = '}' ∨ b = ']' then some (ws, b, cs) else none
  | [] => none

theorem splitWsBracket_length {l ws : List Char} {b : Char} {cs : List Char}
    (h : splitWsBracket l = some (ws, b, cs)) : cs.length < l.length := by
  simp only [splitWsBracket] at h
  rcases hdrop : l.drop (l.takeWhile isJsWs).length with _ | ⟨b1, cs1⟩ <;>
    rw [hdrop] at h <;> dsimp only at h
  · exact absurd h (by simp)
  · by_cases hb : b1 = '}' ∨ b1 = ']'
    · rw [if_pos hb, Option.some.injEq, Prod.mk.injEq, Prod.mk.injEq] at h
      obtain ⟨-, -, hcs⟩ := h
      subst hcs
      have hlen : (l.drop (l.takeWhile isJsWs).length).length ≤ l.length := by
        rw [List.length_drop]
        omega
      rw [hdrop] at hlen
      simp only [List.length_cons] at hlen
      omega
    · rw [if_neg hb] at h
      exact absurd h (by simp)

/-- Worker for the trailing-comma replace, with a fuel argument bounding
the number of scan steps (each step consumes at least one character, so
fuel equal to the input length always suffices and the fuel-exhausted
branch is unreachable from the entry point). -/
def stripTrailingCommasGo : Nat → List Char → List Char
  | 0, l => l
  | _ + 1, [] => []
  | fuel + 1, c :: rest =>
      if c = ',' then
        match splitWsBracket rest with
        | some (ws, b, cs) => ws ++ b :: stripTrailingCommasGo fuel cs
        | none => ',' :: stripTrailingCommasGo fuel rest
      else c :: stripTrailingCommasGo fuel rest

/-- The global replace `cleaned.replace(trailing-comma-regex, dollar-one)`
of llm.ts line 94: delete every comma that is followed by optional
whitespace and a closing brace or bracket, scanning left to right and
continuing after each match. -/
def stripTrailingCommas (l : List Char) : List Char :=
  stripTrailingCommasGo l.length l

/-- The quote-tracking newline fixer (llm.ts lines 117-158), as a direct
port of its loop state: `inString` and `escape` flags, literal `\n`/`\r`
inside strings replaced by a backslash-n escape, `\r\n` collapsing to a
single escape. The fuel argument bounds the number of loop steps; each
step consumes at least one character, so fuel equal to the input length
always suffices. -/
def fixNewlinesGo : Nat → List Char → Bool → Bool → List Char
  | 0, l, _, _ => l
  | _ + 1, [], _, _ => []
  | fuel + 1, c :: rest, inString, escape =>
      if escape then c :: fixNewlinesGo fuel rest inString false
      else if c = '\\' then c :: fixNewlinesGo fuel rest inString true
      else if inString then
        if c = '"' then c :: fixNewlinesGo fuel rest false false
        else if c = '\n' then '\\' :: 'n' :: fixNewlinesGo fuel rest true false
        else if c = '\r' then
          match rest with
          | r0 :: rs =>
              if r0 = '\n' then '\\' :: 'n' :: fixNewlinesGo fuel rs true false
              else '\\' :: 'n' :: fixNewlinesGo fuel (r0 :: rs) true false
          | [] => '\\' :: 'n' :: fixNewlinesGo fuel [] true false
        else c :: fixNewlinesGo fuel rest true false
      else if c = '"' then c :: fixNewlinesGo fuel rest true false
      else c :: fixNewlinesGo fuel rest false false

/-- Entry point of the newline repair stage. -/
def fixNewlinesInsideJsonStrings (json : List Char) : List Char :=
  fixNewlinesGo json.length json false false

/-- The smart-quote repair (llm.ts lines 160-162): curly double quotes
become straight double quotes, curly single quotes become straight single
quotes. -/
def coerceSmartQuotes (json : List Char) : List Char :=
  json.map (fun c =>
    if c = Char.ofNat 8220 ∨ c = Char.ofNat 8221 then '"'
    else if c = Char.ofNat 8216 ∨ c = Char.ofNat 8217 then sqChar
    else c)

/-- Body of a single-quoted string as matched by the single-quote regex:
content up to the first unescaped single quote, where a backslash always
consumes the following character. -/
def singleQuoteBody : List Char → List Char → Option (List Char × List Char)
  | [], _ => none
  | c :: cs, acc =>
      if c = sqChar then some (acc.reverse, cs)
      else if c = '\\' then
        match cs with
        | [] => none
        | d :: ds => singleQuoteBody ds (d :: '\\' :: acc)
      else singleQuoteBody cs (c :: acc)

theorem singleQuoteBody_length_aux :
    ∀ (n : Nat) (l acc inner after : List Char), l.length ≤ n →
      singleQuoteBody l acc = some (inner, after) → after.length < l.length := by
  intro n
  induction n with
  | zero =>
      intro l acc inner after hlen h
      cases l with
      | nil => exact absurd h (by simp [singleQuoteBody])
      | cons c cs => simp at hlen
  | succ n ih =>
      intro l acc inner after hlen h
      cases l with
      | nil => exact absurd h (by simp [singleQuoteBody])
      | cons c cs =>
          rw [singleQuoteBody.eq_def] at h
          dsimp only at h
          by_cases hq : c = sqChar
          · rw [if_pos hq, Option.some.injEq, Prod.mk.injEq] at h
            obtain ⟨-, rfl⟩ := h
            simp
          · rw [if_neg hq] at h
            by_cases hb : c = '\\'
            · rw [if_pos hb] at h
              rcases cs with _ | ⟨d, ds⟩
              · exact absurd h (by simp)
              · dsimp only at h
                have := ih ds _ _ _ (by simp only [List.length_cons] at hlen ⊢; omega) h
                simp only [List.length_cons]
                omega
            · rw [if_neg hb] at h
              have := ih cs _ _ _ (by simp only [List.length_cons] at hlen; omega) h
              simp only [List.length_cons]
              omega

theorem singleQuoteBody_length {l acc inner : List Char} {after : List Char}
    (h : singleQuoteBody l acc = some (inner, after)) : after.length < l.length :=
  singleQuoteBody_length_aux l.length l acc inner after le_rfl h

/-- The replacement `inner.replace(/"/g, backslash-quote)` applied to the
captured single-quoted body. -/
def escapeDoubleQuotes (l : List Char) : List Char :=
  l.bind (fun c => if c = '"' then ['\\', '"'] else [c])

/-- Worker for the single-quote repair, with a fuel argument bounding the
number of scan steps (each step consumes at least one character, so fuel
equal to the input length always suffices). -/
def coerceSingleQuotesGo : Nat → List Char → List Char
  | 0, l => l
  | _ + 1, [] => []
  | fuel + 1, c :: rest =>
      if c = sqChar then
        match singleQuoteBody rest [] with
        | some (inner, after) =>
            '"' :: (escapeDoubleQuotes inner ++ '"' :: coerceSingleQuotesGo fuel after)
        | none => c :: coerceSingleQuotesGo fuel rest
      else c :: coerceSingleQuotesGo fuel rest

/-- The single-quote repair (llm.ts lines 164-166): rewrite each
single-quoted string to a double-quoted string with its inner double
quotes escaped, scanning left to right and continuing after each match. -/
def coerceSingleQuotes (l : List Char) : List Char :=
  coerceSingleQuotesGo l.length l

/-! ## The repair loop, extra-info collection, and the regex fallback
(llm.ts lines 45-114 and 169-211) -/

/-- The known result keys (llm.ts lines 45-54). -/
def KNOWN_RESULT_KEYS : List (List Char) :=
  ["score".data, "verdict".data, "hardRejectionReason".data, "matchBullets".data,
    "riskBullets".data, "bestResumeLabel".data, "explanation".data, "extraInfo".data]

/-- Shallow embedding of `collectExtraInfo` (llm.ts lines 56-68): start
from the fields of `raw.extraInfo` when it is a plain object (null,
arrays, and primitives are skipped), then copy every unknown key of `raw`;
return `none` when the collected object is empty. -/
def collectExtraInfo (raw : List (List Char × JsVal)) :
    Option (List (List Char × JsVal)) :=
  let base : List (List Char × JsVal) :=
    match objLookup raw "extraInfo".data with
    | some (vObj fs) => fs.foldl (fun acc kv => objInsert acc kv.1 kv.2) []
    | _ => []
  let extra := raw.foldl
    (fun acc kv =>
      if KNOWN_RESULT_KEYS.contains kv.1 then acc else objInsert acc kv.1 kv.2)
    base
  if extra.isEmpty then none else some extra

/-- Attach the collected extra info to a parsed object (the
`if (extraInfo) parsed.extraInfo = extraInfo` step). -/
def attachExtraInfo (parsed : JsVal) : JsVal :=
  match parsed with
  | vObj fs =>
      match collectExtraInfo fs with
      | some extra => vObj (objInsert fs "extraInfo".data (vObj extra))
      | none => vObj fs
  | v => v

/-- The repair loop of `parseJsonFromResponse` (llm.ts lines 95-107): try
each repair in order; return the first parse that succeeds and passes the
`parsed != null && typeof parsed === 'object' && 'verdict' in parsed`
check, with extra info attached. -/
def tryRepairsGo : List (List Char → List Char) → List Char → Option JsVal
  | [], _ => none
  | repair :: rest, cleaned =>
      match jsonParse (repair cleaned) with
      | some parsed =>
          if jsHasKey parsed "verdict".data then some (attachExtraInfo parsed)
          else tryRepairsGo rest cleaned
      | none => tryRepairsGo rest cleaned

/-- The repair order (llm.ts line 95). -/
def repairOrder : List (List Char → List Char) :=
  [id, fixNewlinesInsideJsonStrings, coerceSmartQuotes, coerceSingleQuotes]

/-- Try a regex-style literal at the head of the input. -/
def dropLit (lit l : List Char) : Option (List Char) :=
  if l.take lit.length = lit then some (l.drop lit.length) else none

/-- First position (scanning left to right) at which the positional
matcher succeeds; models `RegExp.prototype.exec` without the global
flag. -/
def scanFirst {α : Type} (f : List Char → Option α) : List Char → Option α
  | [] => f []
  | c :: cs =>
      match f (c :: cs) with
      | some r => some r
      | none => scanFirst f cs

/-- Body of a double-quoted group `((?:[^"\x5c]|\x5c.)*)"`: raw content up
to the first unescaped double quote (a backslash always consumes the
following character); returns the raw group and the rest after the closing
quote. -/
def dqBody : List Char → List Char → Option (List Char × List Char)
  | [], _ => none
  | c :: cs, acc =>
      if c = '"' then some (acc.reverse, cs)
      else if c = '\\' then
        match cs with
        | [] => none
        | d :: ds => dqBody ds (d :: '\\' :: acc)
      else dqBody cs (c :: acc)

/-- The two-stage unescape `replace(backslash-n, newline)` then
`replace(backslash-quote, quote)` used on extracted fields. -/
def replacePair (a b : Char) (repl : List Char) : List Char → List Char
  | [] => []
  | [c] => [c]
  | c :: d :: rest =>
      if c = a ∧ d = b then repl ++ replacePair a b repl rest
      else c :: replacePair a b repl (d :: rest)

/-- Unescape an extracted group the way llm.ts line 175 does. -/
def unescapeExtracted (g : List Char) : List Char :=
  replacePair '\\' '"' ['"'] (replacePair '\\' 'n' ['\n'] g)

/-- Positional matcher for the score regex `"score"\s*:\s*([0-9]+)`,
returning the digit run as a natural number. -/
def matchScoreAt (l : List Char) : Option Nat :=
  match dropLit "\"score\"".data l with
  | none => none
  | some r1 =>
      match r1.dropWhile isJsWs with
      | ':' :: r3 =>
          let r4 := r3.dropWhile isJsWs
          let ds := r4.takeWhile Char.isDigit
          if ds.isEmpty then none else some (digitsToNat ds)
      | _ => none

/-- Positional matcher for the verdict regex
`"verdict"\s*:\s*"(worth|maybe|not_worth)"` (alternatives tried in
order). -/
def matchVerdictAt (l : List Char) : Option (List Char) :=
  match dropLit "\"verdict\"".data l with
  | none => none
  | some r1 =>
      match r1.dropWhile isJsWs with
      | ':' :: r3 =>
          match r3.dropWhile isJsWs with
          | '"' :: r5 =>
              match dropLit ('w' :: 'o' :: 'r' :: 't' :: 'h' :: '"' :: []) r5 with
              | some _ => some worthStr
              | none =>
                  match dropLit ('m' :: 'a' :: 'y' :: 'b' :: 'e' :: '"' :: []) r5 with
                  | some _ => some maybeStr
                  | none =>
                      match dropLit (notWorthStr ++ ['"']) r5 with
                      | some _ => some notWorthStr
                      | none => none
          | _ => none
      | _ => none

/-- Positional matcher for the explanation regex
`"explanation"\s*:\s*"((?:[^"\x5c]|\x5c.)*)"`, returning the raw group. -/
def matchExplanationAt (l : List Char) : Option (List Char) :=
  match dropLit "\"explanation\"".data l with
  | none => none
  | some r1 =>
      match r1.dropWhile isJsWs with
      | ':' :: r3 =>
          match r3.dropWhile isJsWs with
          | '"' :: r5 => (dqBody r5 []).map Prod.fst
          | _ => none
      | _ => none

/-- Substring test used to model `match0.includes('matchBullets')`. -/
def containsSub (pat : List Char) : List Char → Bool
  | [] => pat.isEmpty
  | c :: cs => (List.take pat.length (c :: cs) = pat) || containsSub pat cs

/-- The repetition `("body"\s*,?\s*)*` inside the bullets regex followed
by the closing `]`: collect the raw string bodies; fail the position when
the repetition cannot reach a `]`. -/
def bulletItems : Nat → List Char → List (List Char) →
    Option (List (List Char) × List Char)
  | 0, _, _ => none
  | fuel + 1, l, acc =>
      match l with
      | '"' :: r =>
          match dqBody r [] with
          | none => none
          | some (body, r2) =>
              let r3 := r2.dropWhile isJsWs
              let r4 := match r3 with | ',' :: rr => rr | _ => r3
              bulletItems fuel (r4.dropWhile isJsWs) (body :: acc)
      | ']' :: rest => some (acc.reverse, rest)
      | _ => none

/-- Positional matcher for the bullets regex
`"(?:matchBullets|riskBullets)"\s*:\s*\[\s*(items)\]`: returns whether the
whole matched text contains the substring `matchBullets` (the code keys on
`match[0].includes('matchBullets')`), the unescaped items, and the rest of
the input after the match. -/
def matchBulletsAt (l : List Char) : Option (Bool × List (List Char) × List Char) :=
  match l with
  | '"' :: r0 =>
      let keyed : Option (Bool × List Char) :=
        match dropLit ("matchBullets\"").data r0 with
        | some r1 => some (true, r1)
        | none =>
            match dropLit ("riskBullets\"").data r0 with
            | some r1 => some (false, r1)
            | none => none
      match keyed with
      | none => none
      | some (isMatchKey, r1) =>
          match r1.dropWhile isJsWs with
          | ':' :: r3 =>
              match r3.dropWhile isJsWs with
              | '[' :: r5 =>
                  match bulletItems (r5.length + 1) (r5.dropWhile isJsWs) [] with
                  | none => none
                  | some (bodies, rest) =>
                      let included := isMatchKey ||
                        bodies.any (fun b => containsSub "matchBullets".data b)
                      some (included, bodies.map unescapeExtracted, rest)
              | _ => none
          | _ => none
  | _ => none

/-- The global bullets scan (llm.ts lines 178-191): repeatedly find the
next bullets match, route its items by the `includes` test, and continue
after the match. -/
def scanBulletsGo : Nat → List Char → List (List Char) → List (List Char) →
    List (List Char) × List (List Char)
  | 0, _, accM, accR => (accM, accR)
  | _ + 1, [], accM, accR => (accM, accR)
  | fuel + 1, c :: cs, accM, accR =>
      match matchBulletsAt (c :: cs) with
      | some (isMatch, items, rest) =>
          if isMatch then scanBulletsGo fuel rest (accM ++ items) accR
          else scanBulletsGo fuel rest accM (accR ++ items)
      | none => scanBulletsGo fuel cs accM accR

/-- Positional matcher for
`"bestResumeLabel"\s*:\s*(?:"([^"]*)"|null)`: `some (some s)` for a quoted
label (no escape handling in this regex), `some none` for literal
`null`. -/
def matchBestAt (l : List Char) : Option (Option (List Char)) :=
  match dropLit "\"bestResumeLabel\"".data l with
  | none => none
  | some r1 =>
      match r1.dropWhile isJsWs with
      | ':' :: r3 =>
          match r3.dropWhile isJsWs with
          | '"' :: r5 =>
              let body := r5.takeWhile (fun c => c != '"')
              match r5.drop body.length with
              | '"' :: _ => some (some body)
              | _ => none
          | r4 =>
              match dropLit "null".data r4 with
              | some _ => some none
              | none => none
      | _ => none

/-- Positional matcher for
`"hardRejectionReason"\s*:\s*(?:"((?:[^"\x5c]|\x5c.)*)"|null)`; the
captured group is kept raw (the code applies no unescaping to it). -/
def matchHardAt (l : List Char) : Option (Option (List Char)) :=
  match dropLit "\"hardRejectionReason\"".data l with
  | none => none
  | some r1 =>
      match r1.dropWhile isJsWs with
      | ':' :: r3 =>
          match r3.dropWhile isJsWs with
          | '"' :: r5 =>
              match dqBody r5 [] with
              | some (body, _) => some (some body)
              | none =>
                  match dropLit "null".data ('"' :: r5) with
                  | some _ => some none
                  | none => none
          | r4 =>
              match dropLit "null".data r4 with
              | some _ => some none
              | none => none
      | _ => none

/-- The raw-text cap (llm.ts lines 196-200). -/
def MAX_RAW_TEXT_LEN : Nat := 500

/-- Shallow embedding of `extractResultFromBrokenJson` (llm.ts lines
169-211): pull each field independently with the regex matchers, default
score to 50 (clamped when present), verdict to `maybe`, bullets to empty
lists, optional fields to null, and keep the (capped) raw text as extra
info; the function always returns a result object. -/
def extractResultFromBrokenJson (text : List Char) : Option JsVal :=
  let score : Nat :=
    match scanFirst matchScoreAt text with
    | some n => max 0 (min 100 n)
    | none => 50
  let verdict : List Char := (scanFirst matchVerdictAt text).getD maybeStr
  let explanation : List Char :=
    match scanFirst matchExplanationAt text with
    | some g => unescapeExtracted g
    | none => []
  let bullets := scanBulletsGo (text.length + 1) text [] []
  let best : JsVal :=
    match scanFirst matchBestAt text with
    | some (some s) => vStr s
    | some none => vNull
    | none => vNull
  let hard : JsVal :=
    match scanFirst matchHardAt text with
    | some (some s) => vStr s
    | some none => vNull
    | none => vNull
  let extraInfo : JsVal :=
    if text.isEmpty then vNull
    else
      vObj [("rawText".data,
        vStr (if text.length > MAX_RAW_TEXT_LEN then
            text.take MAX_RAW_TEXT_LEN ++ [Char.ofNat 8230]
          else text))]
  some (vObj
    [("score".data, vNum (JsNum.num score)),
      ("verdict".data, vStr verdict),
      ("hardRejectionReason".data, hard),
      ("matchBullets".data, vArr (bullets.1.map vStr)),
      ("riskBullets".data, vArr (bullets.2.map vStr)),
      ("bestResumeLabel".data, best),
      ("explanation".data, vStr explanation),
      ("extraInfo".data, extraInfo)])

/-- The message of the unreachable `throw` (llm.ts lines 111-113). -/
def invalidJsonMsg : List Char :=
  ("The model returned invalid JSON. Try \"Evaluate this job\" again; " ++
    "if it keeps failing, the model may be overloaded.").data

/-- Shallow embedding of `parseJsonFromResponse` (llm.ts lines 70-114):
trim, strip a markdown fence, slice the first brace-balanced object,
delete trailing commas, try the repair chain, and fall back to regex
extraction; the `throw` is modelled as `Except.error`. -/
def parseJsonFromResponse (text : List Char) : Except (List Char) JsVal :=
  let cleaned0 := jsTrim text
  let cleaned1 :=
    match fenceMatch cleaned0 with
    | some g => jsTrim g
    | none => cleaned0
  let cleaned2 := braceSlice cleaned1
  let cleaned := stripTrailingCommas cleaned2
  match tryRepairsGo repairOrder cleaned with
  | some parsed => Except.ok parsed
  | none =>
      match extractResultFromBrokenJson cleaned with
      | some fallback => Except.ok fallback
      | none => Except.error invalidJsonMsg

/-- Claim C10: `extractResultFromBrokenJson` always returns a result, so
`parseJsonFromResponse` never reaches its `throw`: every input yields an
`ok` result; on an input where nothing matches, the fallback defaults are
score 50, verdict `maybe`, and empty bullet lists. -/
theorem parseJsonFromResponse_never_throws :
    (∀ text : List Char, ∃ v, extractResultFromBrokenJson text = some v) ∧
      (∀ text : List Char, ∃ v, parseJsonFromResponse text = Except.ok v) ∧
      (parseJsonFromResponse "hello".data).toOption.map
          (fun v => ((normalizeResult v).score, (normalizeResult v).verdict,
            (normalizeResult v).matchBullets, (normalizeResult v).riskBullets)) =
        some (JsNum.num 50, maybeStr, [], []) := by
  have hkey : ∀ cleaned : List Char,
      ∃ v, (match tryRepairsGo repairOrder cleaned with
            | some parsed => Except.ok parsed
            | none =>
                match extractResultFromBrokenJson cleaned with
                | some fallback => Except.ok fallback
                | none => Except.error invalidJsonMsg) =
          (Except.ok v : Except (List Char) JsVal) := by
    intro cleaned
    cases htr : tryRepairsGo repairOrder cleaned with
    | some p => exact ⟨p, rfl⟩
    | none => exact ⟨_, rfl⟩
  refine ⟨fun text => ⟨_, rfl⟩, fun text => hkey _, by decide⟩

/-- The minimal valid JSON text whose explanation string is a comma, an
escaped newline, and a closing bracket. -/
def c7MinimalDoc : List Char :=
  "\x7b\"verdict\":\"worth\",\"explanation\":\",\\n]\"\x7d".data

/-- The same document with the newline embedded literally inside the
string value. -/
def c7NewlineDoc : List Char :=
  "\x7b\"verdict\":\"worth\",\"explanation\":\",\n]\"\x7d".data

/-- A minimal valid JSON text whose explanation string contains a closing
brace after an escaped newline. -/
def c7MinimalBraceDoc : List Char :=
  "\x7b\"verdict\":\"worth\",\"explanation\":\"a\\nb\x7dc\"\x7d".data

/-- The same document with the newline embedded literally. -/
def c7NewlineBraceDoc : List Char :=
  "\x7b\"verdict\":\"worth\",\"explanation\":\"a\nb\x7dc\"\x7d".data

/-- Claim C7 counterexamples: embedding literal newlines inside string
values does not always yield the identical normalized result. First, the
trailing-comma repair runs before the newline repair and deletes any comma
that the literal newline leaves in front of a closing bracket: the
minimal text keeps explanation comma-newline-bracket while the variant
loses the comma. Second, when a string value contains a closing brace, the
brace-depth slice truncates both texts inside the string, both fall to the
regex fallback, and the preserved raw text differs (literal versus escaped
newline), so the normalized extra info differs. -/
theorem parseJsonFromResponse_newline_claim_counterexample :
    (parseJsonFromResponse c7MinimalDoc).toOption.map
        (fun v => (normalizeResult v).explanation) =
      some (',' :: '\n' :: ']' :: []) ∧
    (parseJsonFromResponse c7NewlineDoc).toOption.map
        (fun v => (normalizeResult v).explanation) =
      some ('\n' :: ']' :: []) ∧
    (parseJsonFromResponse c7MinimalDoc).toOption.map normalizeResult ≠
      (parseJsonFromResponse c7NewlineDoc).toOption.map normalizeResult ∧
    (parseJsonFromResponse c7MinimalBraceDoc).toOption.map normalizeResult ≠
      (parseJsonFromResponse c7NewlineBraceDoc).toOption.map normalizeResult := by
  exact ⟨by decide, by decide, by decide, by decide⟩

/-! ## Fence-wrap equivalence (part of the amended claim C7) -/

/-- The closing fence appended by a markdown wrap: newline then three
backticks. -/
def nl3bq : List Char := '\n' :: bqChar :: bqChar :: bqChar :: []

/-- Canonical markdown fence wrapping of a reply. -/
def fenceWrap (t : List Char) : List Char :=
  bqChar :: bqChar :: bqChar :: 'j' :: 's' :: 'o' :: 'n' :: '\n' :: (t ++ nl3bq)

theorem fenceTail0_append_false : ∀ y : List Char, fenceTail0 (y ++ nl3bq) = false := by
  have hnl : (decide ('\n' = bqChar)) = false := by decide
  have hall : nl3bq.all isJsWs = false := by decide
  intro y
  match y with
  | [] => decide
  | [a] =>
      simp only [List.cons_append, List.nil_append, nl3bq, fenceTail0]
      rw [hnl]
      simp
  | [a, b] =>
      simp only [List.cons_append, List.nil_append, nl3bq, fenceTail0]
      rw [hnl]
      simp
  | a :: b :: c :: y2 =>
      simp only [List.cons_append, fenceTail0, List.all_append]
      rw [hall]
      simp

theorem fenceTailMatches_append_false (c : Char) (u : List Char) :
    fenceTailMatches ((c :: u) ++ nl3bq) = false := by
  rw [List.cons_append, fenceTailMatches]
  by_cases hc : c = '\n'
  · rw [if_pos hc, fenceTail0_append_false u,
      show c :: (u ++ nl3bq) = (c :: u) ++ nl3bq from rfl,
      fenceTail0_append_false (c :: u)]
    rfl
  · rw [if_neg hc,
      show c :: (u ++ nl3bq) = (c :: u) ++ nl3bq from rfl,
      fenceTail0_append_false (c :: u)]

theorem fenceLazyScan_append : ∀ (t acc : List Char),
    fenceLazyScan acc (t ++ nl3bq) = some (acc.reverse ++ t) := by
  intro t
  induction t with
  | nil =>
      intro acc
      show fenceLazyScan acc nl3bq = some (acc.reverse ++ [])
      rw [show nl3bq = '\n' :: (bqChar :: bqChar :: bqChar :: []) from rfl,
        fenceLazyScan]
      rw [if_pos (by decide)]
      simp
  | cons c t2 ih =>
      intro acc
      rw [List.cons_append, fenceLazyScan]
      rw [if_neg (by
        rw [show c :: (t2 ++ nl3bq) = (c :: t2) ++ nl3bq from rfl,
          fenceTailMatches_append_false]
        simp)]
      rw [ih (c :: acc)]
      simp

theorem fenceMatch_wrap (t : List Char) (ht : t.head? = some '{') :
    fenceMatch (fenceWrap t) = some t := by
  obtain ⟨t2, rfl⟩ : ∃ t2, t = '{' :: t2 := by
    cases t with
    | nil => simp at ht
    | cons c t2 =>
        refine ⟨t2, ?_⟩
        simp only [List.head?_cons, Option.some.injEq] at ht
        rw [ht]
  show fenceFirstSome
      (fencePrefixStarts ('j' :: 's' :: 'o' :: 'n' :: '\n' :: (('{' :: t2) ++ nl3bq))) =
    some ('{' :: t2)
  have hstarts :
      fencePrefixStarts ('j' :: 's' :: 'o' :: 'n' :: '\n' :: (('{' :: t2) ++ nl3bq)) =
        (('{' :: t2) ++ nl3bq) ::
          (('{' :: t2) ++ nl3bq) ::
            ('\n' :: (('{' :: t2) ++ nl3bq)) ::
              (wsSuffixesDesc
                  ('j' :: 's' :: 'o' :: 'n' :: '\n' :: (('{' :: t2) ++ nl3bq))).flatMap
                (fun r2 =>
                  match r2 with
                  | '\n' :: rs => [rs, r2]
                  | _ => [r2]) := by
    simp only [fencePrefixStarts]
    rw [if_pos (by rfl)]
    simp only [List.flatMap_cons, List.flatMap_nil, List.drop_succ_cons, List.drop_zero]
    have htw : List.takeWhile isJsWs ('\n' :: (('{' :: t2) ++ nl3bq)) = ['\n'] := by
      rw [List.takeWhile_cons, if_pos (by decide), List.cons_append,
        List.takeWhile_cons, if_neg (by decide)]
    have hws : wsSuffixesDesc ('\n' :: (('{' :: t2) ++ nl3bq)) =
        [('{' :: t2) ++ nl3bq, '\n' :: (('{' :: t2) ++ nl3bq)] := by
      simp only [wsSuffixesDesc, htw]
      simp [List.range_succ]
    rw [hws]
    simp
  rw [hstarts, fenceFirstSome, fenceLazyScan_append ('{' :: t2) []]
  simp

theorem fenceMatch_brace (t : List Char) (ht : t.head? = some '{') :
    fenceMatch t = none := by
  obtain ⟨t2, rfl⟩ : ∃ t2, t = '{' :: t2 := by
    cases t with
    | nil => simp at ht
    | cons c t2 =>
        refine ⟨t2, ?_⟩
        simp only [List.head?_cons, Option.some.injEq] at ht
        rw [ht]
  cases t2 with
  | nil => rfl
  | cons b t3 =>
      cases t3 with
      | nil => rfl
      | cons c t4 =>
          show fenceMatch ('{' :: b :: c :: t4) = none
          simp only [fenceMatch]
          rw [if_neg]
          rintro ⟨h, -⟩
          exact absurd h (by decide)

theorem jsTrim_eq_self {l : List Char}
    (h1 : ∃ c, l.head? = some c ∧ isJsWs c = false)
    (h2 : ∃ c, l.getLast? = some c ∧ isJsWs c = false) : jsTrim l = l := by
  obtain ⟨c, hc, hcw⟩ := h1
  obtain ⟨d, hd, hdw⟩ := h2
  unfold jsTrim
  have e1 : l.dropWhile isJsWs = l := by
    cases l with
    | nil => simp at hc
    | cons a rest =>
        simp only [List.head?_cons, Option.some.injEq] at hc
        rw [List.dropWhile_cons, if_neg (by rw [hc]; simp [hcw])]
  rw [e1]
  have e2 : l.reverse.dropWhile isJsWs = l.reverse := by
    cases hrev : l.reverse with
    | nil =>
        rfl
    | cons a rest =>
        have : l.reverse.head? = some a := by rw [hrev]; rfl
        rw [List.head?_reverse] at this
        rw [hd] at this
        simp only [Option.some.injEq] at this
        rw [List.dropWhile_cons, if_neg (by rw [← this]; simp [hdw])]
  rw [e2, List.reverse_reverse]

theorem parse_fenceWrap_eq (t : List Char) (ht : t.head? = some '{')
    (htr : jsTrim t = t) :
    parseJsonFromResponse (fenceWrap t) = parseJsonFromResponse t := by
  have e0 : jsTrim (fenceWrap t) = fenceWrap t := by
    apply jsTrim_eq_self
    · exact ⟨bqChar, rfl, by decide⟩
    · refine ⟨bqChar, ?_, by decide⟩
      show (fenceWrap t).getLast? = some bqChar
      rw [show fenceWrap t =
        (bqChar :: bqChar :: bqChar :: 'j' :: 's' :: 'o' :: 'n' :: '\n' :: []) ++
          (t ++ nl3bq) from by simp [fenceWrap]]
      rw [List.getLast?_append, List.getLast?_append]
      rfl
  simp only [parseJsonFromResponse, e0, fenceMatch_wrap t ht, fenceMatch_brace t ht, htr]

/-! ## A family of well-formed result documents (amended claim C7)

The amended claim quantifies over result objects rendered from a schema
value whose strings are plain text: printable characters other than double
quote, backslash, braces and brackets (the explanation may additionally
contain newlines). The counterexamples above show why the brackets and
braces must be excluded for the literal-newline variant. -/

/-- Plain-text characters: printable, no quote, no backslash, no braces
or brackets. -/
def tameChar (c : Char) : Bool :=
  32 ≤ c.toNat && c ≠ '"' && c ≠ '\\' && c ≠ '{' && c ≠ '}' && c ≠ '[' && c ≠ ']'

/-- Render a string with newlines escaped as backslash-n. -/
def escNl (s : List Char) : List Char :=
  s.flatMap (fun c => if c = '\n' then ['\\', 'n'] else [c])

/-- Decimal digits of a natural number (worker, most significant first;
fuel bounds the number of divisions). -/
def natDigitsGo : Nat → Nat → List Char
  | 0, _ => []
  | fuel + 1, n =>
      if n = 0 then []
      else natDigitsGo fuel (n / 10) ++ [Char.ofNat (48 + n % 10)]

/-- Decimal rendering of a natural number. -/
def natDigits (n : Nat) : List Char :=
  if n = 0 then ['0'] else natDigitsGo (n + 1) n

/-- Render a comma-separated list of quoted strings. -/
def renderStrList : List (List Char) → List Char
  | [] => []
  | [s] => '"' :: (s ++ ['"'])
  | s :: rest => '"' :: (s ++ '"' :: ',' :: renderStrList rest)

/-- A result document of the schema the system prompt requests: a score,
a verdict string, match bullets, and an explanation. -/
structure ResultDoc : Type where
  score : Nat
  verdict : List Char
  matchBullets : List (List Char)
  explanation : List Char

/-- The rendered document interior shared by the minimal and
literal-newline variants, parameterized by the rendering of the
explanation string body. -/
def renderMid (d : ResultDoc) (expl : List Char) : List Char :=
  "\"score\":".data ++ natDigits d.score ++
    ",\"verdict\":\"".data ++ d.verdict ++
    "\",\"matchBullets\":[".data ++ renderStrList d.matchBullets ++
    ']' :: ',' :: ("\"explanation\":\"".data ++ (expl ++ ['"']))

/-- The document interior with the two trailing commas inserted (before
the bullets-closing bracket and before the object-closing brace). -/
def renderMidTC (d : ResultDoc) : List Char :=
  "\"score\":".data ++ natDigits d.score ++
    ",\"verdict\":\"".data ++ d.verdict ++
    "\",\"matchBullets\":[".data ++ renderStrList d.matchBullets ++
    ',' :: ']' :: ',' :: ("\"explanation\":\"".data ++ (escNl d.explanation ++ ['"', ',']))

/-- The minimal valid JSON rendering. -/
def renderDoc (d : ResultDoc) : List Char :=
  '{' :: (renderMid d (escNl d.explanation) ++ ['}'])

/-- The rendering with the explanation newlines embedded literally. -/
def renderDocNl (d : ResultDoc) : List Char :=
  '{' :: (renderMid d d.explanation ++ ['}'])

/-- The rendering with trailing commas inserted before the closing
bracket of the bullets array and before the closing brace of the
object. -/
def renderDocTC (d : ResultDoc) : List Char :=
  '{' :: (renderMidTC d ++ ['}'])

theorem natDigitsGo_zero : ∀ f, natDigitsGo f 0 = [] := by
  intro f
  cases f with
  | zero => rfl
  | succ f => simp [natDigitsGo]

theorem natDigitsGo_spec : ∀ (f n : Nat), 0 < n → n < 10 ^ f →
    ∃ c rest2, natDigitsGo f n = c :: rest2 ∧
      ((c :: rest2).all Char.isDigit ∧ c ≠ '0') := by
  intro f
  induction f with
  | zero =>
      intro n hn hlt
      simp at hlt
      omega
  | succ f ih =>
      intro n hn hlt
      rw [natDigitsGo, if_neg (by omega)]
      by_cases hsmall : n < 10
      · have hdiv : n / 10 = 0 := Nat.div_eq_of_lt hsmall
        rw [hdiv, natDigitsGo_zero, List.nil_append]
        have hmod : n % 10 = n := Nat.mod_eq_of_lt hsmall
        rw [hmod]
        refine ⟨Char.ofNat (48 + n), [], rfl, ?_⟩
        interval_cases n <;> exact ⟨by decide, by decide⟩
      · have hdivpos : 0 < n / 10 := Nat.div_pos (by omega) (by omega)
        have hdivlt : n / 10 < 10 ^ f := by
          have h1 : n < 10 ^ (f + 1) := hlt
          have h2 : n / 10 < 10 ^ (f + 1) / 10 + 1 := by
            exact Nat.lt_succ_of_le (Nat.div_le_div_right (Nat.le_of_lt_succ
              (Nat.lt_succ_of_lt h1)))
          have h3 : 10 ^ (f + 1) / 10 = 10 ^ f := by
            rw [pow_succ]
            exact Nat.mul_div_cancel _ (by norm_num)
          omega
        obtain ⟨c, rest2, heq, hall, hc0⟩ := ih (n / 10) hdivpos hdivlt
        refine ⟨c, rest2 ++ [Char.ofNat (48 + n % 10)], by rw [heq]; simp, ?_, hc0⟩
        have hlast : (Char.ofNat (48 + n % 10)).isDigit = true := by
          have : n % 10 < 10 := Nat.mod_lt _ (by norm_num)
          set m := n % 10 with hm
          interval_cases m <;> decide
        simp only [List.all_cons, List.all_append] at hall ⊢
        simp only [List.all_cons, List.all_nil, hlast]
        simp only [Bool.and_eq_true] at hall
        simp [hall.1, hall.2]

theorem natDigits_spec (n : Nat) :
    ∃ c rest2, natDigits n = c :: rest2 ∧ (c :: rest2).all Char.isDigit ∧
      (n = 0 → c = '0' ∧ rest2 = []) ∧ (0 < n → c ≠ '0') := by
  by_cases hn : n = 0
  · subst hn
    exact ⟨'0', [], rfl, by decide, fun _ => ⟨rfl, rfl⟩, by omega⟩
  · have hlt : n < 10 ^ (n + 1) := by
      calc n < 2 ^ n := Nat.lt_two_pow n
      _ ≤ 10 ^ n := Nat.pow_le_pow_left (by norm_num) n
      _ ≤ 10 ^ (n + 1) := Nat.pow_le_pow_right (by norm_num) (by omega)
    obtain ⟨c, rest2, heq, hall, hc0⟩ := natDigitsGo_spec (n + 1) n (by omega) hlt
    exact ⟨c, rest2, by rw [natDigits, if_neg hn]; exact heq, hall,
      fun h => absurd h hn, fun _ => hc0⟩

/-- The tameness condition of the amended claim: verdict and bullet
strings are plain text, the explanation is plain text possibly with
newlines. -/
def TameDoc (d : ResultDoc) : Prop :=
  (∀ c ∈ d.verdict, tameChar c = true) ∧
  (∀ s ∈ d.matchBullets, ∀ c ∈ s, tameChar c = true) ∧
  (∀ c ∈ d.explanation, tameChar c = true ∨ c = '\n')

instance (d : ResultDoc) : Decidable (TameDoc d) := by
  unfold TameDoc
  infer_instance

theorem tameChar_props {c : Char} (h : tameChar c = true) :
    32 ≤ c.toNat ∧ c ≠ '"' ∧ c ≠ '\\' ∧ c ≠ '{' ∧ c ≠ '}' ∧ c ≠ '[' ∧ c ≠ ']' := by
  simp only [tameChar, Bool.and_eq_true, decide_eq_true_eq] at h
  obtain ⟨⟨⟨⟨⟨⟨h1, h2⟩, h3⟩, h4⟩, h5⟩, h6⟩, h7⟩ := h
  exact ⟨h1, h2, h3, h4, h5, h6, h7⟩

theorem digit_props {c : Char} (h : c.isDigit = true) :
    isJsWs c = false ∧ isJsonWs c = false ∧
      c ≠ '{' ∧ c ≠ '}' ∧ c ≠ '[' ∧ c ≠ ']' ∧ c ≠ ',' ∧ c ≠ '"' ∧ c ≠ '\\' ∧
      c ≠ '\n' ∧ c ≠ '\r' ∧ c ≠ 't' ∧ c ≠ 'f' ∧ c ≠ 'n' ∧ c ≠ '-' := by
  have hd : ∀ d : Char, d.isDigit = false → c ≠ d := by
    intro d hd hcd
    rw [hcd, hd] at h
    exact absurd h (by simp)
  refine ⟨?_, ?_, hd '{' (by decide), hd '}' (by decide), hd '[' (by decide),
    hd ']' (by decide), hd ',' (by decide), hd '"' (by decide), hd '\\' (by decide),
    hd '\n' (by decide), hd '\r' (by decide), hd 't' (by decide), hd 'f' (by decide),
    hd 'n' (by decide), hd '-' (by decide)⟩
  · simp [isJsWs, hd ' ' (by decide), hd '\t' (by decide), hd '\n' (by decide),
      hd '\r' (by decide), hd (Char.ofNat 11) (by decide), hd (Char.ofNat 12) (by decide),
      hd (Char.ofNat 160) (by decide)]
  · simp [isJsonWs, hd ' ' (by decide), hd '\t' (by decide), hd '\n' (by decide),
      hd '\r' (by decide)]

theorem natDigits_mem {n : Nat} {c : Char} (h : c ∈ natDigits n) : c.isDigit = true := by
  obtain ⟨c0, rest2, heq, hall, -, -⟩ := natDigits_spec n
  rw [heq] at h
  rw [List.all_eq_true] at hall
  exact hall c h

theorem escNl_mem {s : List Char} {c : Char} (h : c ∈ escNl s) :
    c = '\\' ∨ c = 'n' ∨ c ∈ s := by
  rw [escNl, List.mem_flatMap] at h
  obtain ⟨a, ha, hc⟩ := h
  by_cases hnl : a = '\n'
  · rw [if_pos hnl] at hc
    simp only [List.mem_cons, List.not_mem_nil, or_false] at hc
    rcases hc with hc | hc
    · exact Or.inl hc
    · exact Or.inr (Or.inl hc)
  · rw [if_neg hnl] at hc
    simp only [List.mem_cons, List.not_mem_nil, or_false] at hc
    exact Or.inr (Or.inr (hc ▸ ha))

theorem renderStrList_mem : ∀ (bs : List (List Char)) (c : Char),
    c ∈ renderStrList bs → c = '"' ∨ c = ',' ∨ ∃ s ∈ bs, c ∈ s := by
  intro bs
  induction bs with
  | nil => intro c h; exact absurd h (by simp [renderStrList])
  | cons s rest ih =>
      intro c h
      cases rest with
      | nil =>
          simp only [renderStrList, List.mem_cons, List.mem_append] at h
          rcases h with h | h | h
          · exact Or.inl h
          · exact Or.inr (Or.inr ⟨s, by simp, h⟩)
          · rcases h with h | h
            · exact Or.inl h
            · exact absurd h (by simp)
      | cons s2 r2 =>
          simp only [renderStrList, List.mem_cons, List.mem_append] at h
          rcases h with h | h
          · exact Or.inl h
          · rcases h with h | h
            · exact Or.inr (Or.inr ⟨s, by simp, h⟩)
            · rcases h with h | h
              · exact Or.inl h
              · rcases h with h | h
                · exact Or.inr (Or.inl h)
                · rcases ih c h with h1 | h1 | ⟨s1, hs1, hc1⟩
                  · exact Or.inl h1
                  · exact Or.inr (Or.inl h1)
                  · exact Or.inr (Or.inr ⟨s1, List.mem_cons_of_mem _ hs1, hc1⟩)

theorem findObjEnd_append_nb : ∀ (mid rest : List Char) (depth : Int) (i : Nat),
    (∀ c ∈ mid, c ≠ '{' ∧ c ≠ '}') →
    findObjEnd (mid ++ rest) depth i = findObjEnd rest depth (i + mid.length) := by
  intro mid
  induction mid with
  | nil => intro rest depth i _; simp
  | cons c cs ih =>
      intro rest depth i h
      have hc := h c (List.mem_cons_self c cs)
      rw [List.cons_append]
      show findObjEnd (c :: (cs ++ rest)) depth i = _
      simp only [findObjEnd]
      rw [if_neg (by simp [hc.1]), if_neg (by simp [hc.2]),
        ih rest depth (i + 1) (fun x hx => h x (List.mem_cons_of_mem _ hx))]
      congr 1
      simp only [List.length_cons]
      omega

theorem braceSlice_sandwich (mid : List Char)
    (h : ∀ c ∈ mid, c ≠ '{' ∧ c ≠ '}') :
    braceSlice ('{' :: (mid ++ ['}'])) = '{' :: (mid ++ ['}']) := by
  have hpre : ('{' :: (mid ++ ['}'])).takeWhile (fun c => c != '{') = [] := by
    rw [List.takeWhile_cons, if_neg (by simp)]
  have hfind : findObjEnd ('{' :: (mid ++ ['}'])) 0 0 = some (1 + mid.length) := by
    have h1 : findObjEnd ('{' :: (mid ++ ['}'])) 0 0 = findObjEnd (mid ++ ['}']) 1 1 := by
      simp only [findObjEnd]
      norm_num
    rw [h1, findObjEnd_append_nb mid ['}'] 1 1 h]
    simp only [findObjEnd]
    norm_num
    exact fun hcontra => absurd hcontra (by decide)
  simp only [braceSlice, hpre, List.length_nil]
  rw [if_neg (by simp), List.drop_zero, hfind]
  show ('{' :: (mid ++ ['}'])).take (1 + mid.length + 1) = _
  rw [show 1 + mid.length + 1 = ('{' :: (mid ++ ['}'])).length from by
      simp only [List.length_cons, List.length_append, List.length_nil]; omega,
    List.take_length]

theorem renderMid_braceFree (d : ResultDoc) (expl : List Char)
    (hv : ∀ c ∈ d.verdict, tameChar c = true)
    (hb : ∀ s ∈ d.matchBullets, ∀ c ∈ s, tameChar c = true)
    (he : ∀ c ∈ expl, c ≠ '{' ∧ c ≠ '}') :
    ∀ c ∈ renderMid d expl, c ≠ '{' ∧ c ≠ '}' := by
  simp only [renderMid, List.forall_mem_append, List.forall_mem_cons]
  repeat' apply And.intro
  all_goals first
    | decide
    | exact fun c hc => ⟨(digit_props (natDigits_mem hc)).2.2.1,
        (digit_props (natDigits_mem hc)).2.2.2.1⟩
    | exact fun c hc => ⟨(tameChar_props (hv c hc)).2.2.2.1,
        (tameChar_props (hv c hc)).2.2.2.2.1⟩
    | exact fun c hc => he c hc
    | exact fun c hc => by
        rcases renderStrList_mem d.matchBullets c hc with h1 | h1 | ⟨s, hs, h1⟩
        · subst h1; exact ⟨by decide, by decide⟩
        · subst h1; exact ⟨by decide, by decide⟩
        · exact ⟨(tameChar_props (hb s hs c h1)).2.2.2.1,
            (tameChar_props (hb s hs c h1)).2.2.2.2.1⟩

/-! ## The trailing-comma strip on the rendered documents -/

/-- The rendered prefix through the bullets list (shared by all three
variants). -/
def renderPre (d : ResultDoc) : List Char :=
  "\"score\":".data ++ natDigits d.score ++ ",\"verdict\":\"".data ++ d.verdict ++
    "\",\"matchBullets\":[".data ++ renderStrList d.matchBullets

/-- Safety of a segment under the trailing-comma scan relative to a
continuation: no comma in the segment has a whitespace-then-closing-
bracket lookahead (within the segment and on into the continuation). -/
def stripSafe : List Char → List Char → Prop
  | [], _ => True
  | c :: s, r => (c = ',' → splitWsBracket (s ++ r) = none) ∧ stripSafe s r

theorem stripSafe_cons (c : Char) (s r : List Char)
    (h1 : c = ',' → splitWsBracket (s ++ r) = none) (h2 : stripSafe s r) :
    stripSafe (c :: s) r := ⟨h1, h2⟩

theorem stripSafe_append {x y r : List Char} (hx : stripSafe x (y ++ r))
    (hy : stripSafe y r) : stripSafe (x ++ y) r := by
  induction x with
  | nil => simpa using hy
  | cons c s ih =>
      obtain ⟨h1, h2⟩ := hx
      rw [List.cons_append]
      exact ⟨fun hc => by rw [List.append_assoc]; exact h1 hc, ih h2⟩

theorem stripGo_nil : ∀ f, stripTrailingCommasGo f [] = [] := by
  intro f; cases f <;> rfl

theorem stripGo_cons_noncomma (f : Nat) (c : Char) (r : List Char) (hc : c ≠ ',') :
    stripTrailingCommasGo (f + 1) (c :: r) = c :: stripTrailingCommasGo f r := by
  rw [stripTrailingCommasGo, if_neg hc]

theorem stripGo_cons_comma_none (f : Nat) (r : List Char)
    (hr : splitWsBracket r = none) :
    stripTrailingCommasGo (f + 1) (',' :: r) = ',' :: stripTrailingCommasGo f r := by
  rw [stripTrailingCommasGo, if_pos rfl, hr]

theorem stripGo_cons_comma_bracket (f : Nat) (b : Char) (r : List Char)
    (hb : b = '}' ∨ b = ']') (hbw : isJsWs b = false) :
    stripTrailingCommasGo (f + 1) (',' :: b :: r) = b :: stripTrailingCommasGo f r := by
  have htw : (b :: r).takeWhile isJsWs = [] := by
    rw [List.takeWhile_cons, if_neg (by simp [hbw])]
  have hsplit : splitWsBracket (b :: r) = some ([], b, r) := by
    simp only [splitWsBracket, htw, List.length_nil, List.drop_zero]
    rw [if_pos hb]
  rw [stripTrailingCommasGo, if_pos rfl, hsplit]
  rfl

theorem stripGo_safe_append : ∀ (x r : List Char) (f : Nat), stripSafe x r →
    stripTrailingCommasGo (x.length + f) (x ++ r) = x ++ stripTrailingCommasGo f r := by
  intro x
  induction x with
  | nil => intro r f _; simp
  | cons c s ih =>
      intro r f hsafe
      obtain ⟨h1, h2⟩ := hsafe
      rw [show (c :: s).length + f = (s.length + f) + 1 from by
          simp only [List.length_cons]; omega,
        List.cons_append]
      by_cases hc : c = ','
      · subst hc
        rw [stripGo_cons_comma_none (s.length + f) (s ++ r) (h1 rfl), ih r f h2,
          List.cons_append]
      · rw [stripGo_cons_noncomma (s.length + f) c (s ++ r) hc, ih r f h2,
          List.cons_append]

theorem stripTrailingCommas_of_safe {l : List Char} (h : stripSafe l []) :
    stripTrailingCommas l = l := by
  have h0 := stripGo_safe_append l [] 0 h
  simpa [stripTrailingCommas, stripTrailingCommasGo] using h0

theorem drop_takeWhile_length (p : Char → Bool) : ∀ l : List Char,
    l.drop (l.takeWhile p).length = l.dropWhile p := by
  intro l
  induction l with
  | nil => rfl
  | cons a s ih =>
      rw [List.takeWhile_cons, List.dropWhile_cons]
      by_cases hp : p a = true
      · rw [if_pos hp, if_pos hp, List.length_cons, List.drop_succ_cons, ih]
      · rw [if_neg hp, if_neg hp, List.length_nil, List.drop_zero]

theorem splitWsBracket_none_of_head {l : List Char} {c : Char} {rest2 : List Char}
    (hd : l.dropWhile isJsWs = c :: rest2) (hc1 : c ≠ '}') (hc2 : c ≠ ']') :
    splitWsBracket l = none := by
  simp only [splitWsBracket, drop_takeWhile_length, hd]
  rw [if_neg (by simp [hc1, hc2])]

theorem splitWsBracket_quote_head {l : List Char} (h : l.head? = some '"') :
    splitWsBracket l = none := by
  cases l with
  | nil => simp at h
  | cons a t =>
      simp only [List.head?_cons, Option.some.injEq] at h
      subst h
      exact splitWsBracket_none_of_head
        (by rw [List.dropWhile_cons, if_neg (by decide)]) (by decide) (by decide)

theorem dropWhile_land_quote : ∀ (s r : List Char),
    (∀ c ∈ s, c ≠ '}' ∧ c ≠ ']') →
    ∃ c rest2, (s ++ '"' :: r).dropWhile isJsWs = c :: rest2 ∧ c ≠ '}' ∧ c ≠ ']' := by
  intro s
  induction s with
  | nil =>
      intro r _
      exact ⟨'"', r, by rw [List.nil_append, List.dropWhile_cons, if_neg (by decide)],
        by decide, by decide⟩
  | cons a s ih =>
      intro r h
      rw [List.cons_append, List.dropWhile_cons]
      by_cases hw : isJsWs a = true
      · rw [if_pos hw]
        exact ih r (fun c hc => h c (List.mem_cons_of_mem _ hc))
      · rw [if_neg hw]
        exact ⟨a, s ++ '"' :: r, rfl, (h a (List.mem_cons_self a s)).1,
          (h a (List.mem_cons_self a s)).2⟩

theorem stripSafe_noBracket : ∀ (s r : List Char),
    (∀ c ∈ s, c ≠ '}' ∧ c ≠ ']') → stripSafe s ('"' :: r) := by
  intro s
  induction s with
  | nil => intro r _; trivial
  | cons a s ih =>
      intro r h
      refine ⟨fun _ => ?_, ih r (fun c hc => h c (List.mem_cons_of_mem _ hc))⟩
      obtain ⟨c, rest2, hd, hc1, hc2⟩ := dropWhile_land_quote s r
        (fun c hc => h c (List.mem_cons_of_mem _ hc))
      exact splitWsBracket_none_of_head hd hc1 hc2

theorem stripSafe_noBracket_head {s r : List Char}
    (hs : ∀ c ∈ s, c ≠ '}' ∧ c ≠ ']') (hr : r.head? = some '"') : stripSafe s r := by
  cases r with
  | nil => simp at hr
  | cons a t =>
      simp only [List.head?_cons, Option.some.injEq] at hr
      subst hr
      exact stripSafe_noBracket s t hs

theorem stripSafe_noComma : ∀ (s r : List Char), (∀ c ∈ s, c ≠ ',') → stripSafe s r := by
  intro s
  induction s with
  | nil => intro r _; trivial
  | cons a s ih =>
      intro r h
      exact ⟨fun hc => absurd hc (h a (List.mem_cons_self a s)),
        ih r (fun c hc => h c (List.mem_cons_of_mem _ hc))⟩

theorem stripSafe_glueC (r : List Char) : stripSafe (",\"verdict\":\"".data) r := by
  rw [show ",\"verdict\":\"".data = ',' :: "\"verdict\":\"".data from rfl]
  refine stripSafe_cons _ _ _ (fun _ => splitWsBracket_quote_head rfl) ?_
  exact stripSafe_noComma _ _ (by decide)

theorem stripSafe_glueE (r : List Char) : stripSafe ("\",\"matchBullets\":[".data) r := by
  rw [show "\",\"matchBullets\":[".data = '"' :: ',' :: "\"matchBullets\":[".data from rfl]
  refine stripSafe_cons _ _ _ (fun hcon => absurd hcon (by decide)) ?_
  refine stripSafe_cons _ _ _ (fun _ => splitWsBracket_quote_head rfl) ?_
  exact stripSafe_noComma _ _ (by decide)

theorem renderStrList_head_quote (s : List Char) (rest : List (List Char)) :
    ∃ X, renderStrList (s :: rest) = '"' :: X := by
  cases rest <;> exact ⟨_, rfl⟩

theorem stripSafe_renderStrList : ∀ (bs : List (List Char)) (r : List Char),
    (∀ s ∈ bs, ∀ c ∈ s, tameChar c = true) → stripSafe (renderStrList bs) r := by
  intro bs
  induction bs with
  | nil => intro r _; trivial
  | cons s rest ih =>
      intro r hall
      have hsnb : ∀ c ∈ s, c ≠ '}' ∧ c ≠ ']' := fun c hc =>
        ⟨(tameChar_props (hall s (List.mem_cons_self s rest) c hc)).2.2.2.2.1,
         (tameChar_props (hall s (List.mem_cons_self s rest) c hc)).2.2.2.2.2.2⟩
      cases rest with
      | nil =>
          show stripSafe ('"' :: (s ++ ['"'])) r
          refine stripSafe_cons _ _ _ (fun hcon => absurd hcon (by decide)) ?_
          exact stripSafe_append (stripSafe_noBracket_head hsnb rfl)
            (stripSafe_noComma _ _ (by decide))
      | cons s2 r2 =>
          show stripSafe ('"' :: (s ++ '"' :: ',' :: renderStrList (s2 :: r2))) r
          refine stripSafe_cons _ _ _ (fun hcon => absurd hcon (by decide)) ?_
          refine stripSafe_append (stripSafe_noBracket_head hsnb rfl) ?_
          refine stripSafe_cons _ _ _ (fun hcon => absurd hcon (by decide)) ?_
          refine stripSafe_cons _ _ _ (fun _ => ?_)
            (ih r (fun t ht => hall t (List.mem_cons_of_mem _ ht)))
          obtain ⟨X, hX⟩ := renderStrList_head_quote s2 r2
          rw [hX]
          exact splitWsBracket_quote_head rfl

theorem stripSafe_renderPre (d : ResultDoc)
    (hv : ∀ c ∈ d.verdict, tameChar c = true)
    (hb : ∀ s ∈ d.matchBullets, ∀ c ∈ s, tameChar c = true)
    (r : List Char) : stripSafe (renderPre d) r := by
  have hvnb : ∀ c ∈ d.verdict, c ≠ '}' ∧ c ≠ ']' := fun c hc =>
    ⟨(tameChar_props (hv c hc)).2.2.2.2.1, (tameChar_props (hv c hc)).2.2.2.2.2.2⟩
  rw [renderPre]
  exact stripSafe_append (stripSafe_append (stripSafe_append (stripSafe_append
    (stripSafe_append (stripSafe_noComma _ _ (by decide))
      (stripSafe_noComma _ _ (fun c hc => (digit_props (natDigits_mem hc)).2.2.2.2.2.2.1)))
    (stripSafe_glueC _)) (stripSafe_noBracket_head hvnb rfl)) (stripSafe_glueE _))
    (stripSafe_renderStrList d.matchBullets _ hb)

theorem stripSafe_renderMid (d : ResultDoc) (expl : List Char)
    (hv : ∀ c ∈ d.verdict, tameChar c = true)
    (hb : ∀ s ∈ d.matchBullets, ∀ c ∈ s, tameChar c = true)
    (he : ∀ c ∈ expl, c ≠ '}' ∧ c ≠ ']') (r : List Char) :
    stripSafe (renderMid d expl) r := by
  rw [show renderMid d expl =
    renderPre d ++ (']' :: ',' :: ("\"explanation\":\"".data ++ (expl ++ ['"']))) from rfl]
  refine stripSafe_append (stripSafe_renderPre d hv hb _) ?_
  refine stripSafe_cons _ _ _ (fun hcon => absurd hcon (by decide)) ?_
  refine stripSafe_cons _ _ _ (fun _ => splitWsBracket_quote_head rfl) ?_
  refine stripSafe_append (stripSafe_noComma _ _ (by decide)) ?_
  exact stripSafe_append (stripSafe_noBracket_head he rfl)
    (stripSafe_noComma _ _ (by decide))

theorem stripSafe_renderDoc_gen (d : ResultDoc) (expl : List Char)
    (hv : ∀ c ∈ d.verdict, tameChar c = true)
    (hb : ∀ s ∈ d.matchBullets, ∀ c ∈ s, tameChar c = true)
    (he : ∀ c ∈ expl, c ≠ '}' ∧ c ≠ ']') :
    stripSafe ('{' :: (renderMid d expl ++ ['}'])) [] := by
  refine stripSafe_cons _ _ _ (fun hcon => absurd hcon (by decide)) ?_
  exact stripSafe_append (stripSafe_renderMid d expl hv hb he _)
    (stripSafe_noComma _ _ (by decide))

theorem escNl_noBracket {e : List Char}
    (he : ∀ c ∈ e, tameChar c = true ∨ c = '\n') :
    ∀ c ∈ escNl e, c ≠ '}' ∧ c ≠ ']' := by
  intro c hc
  rcases escNl_mem hc with h1 | h1 | h1
  · subst h1; exact ⟨by decide, by decide⟩
  · subst h1; exact ⟨by decide, by decide⟩
  · rcases he c h1 with h2 | h2
    · exact ⟨(tameChar_props h2).2.2.2.2.1, (tameChar_props h2).2.2.2.2.2.2⟩
    · subst h2; exact ⟨by decide, by decide⟩

theorem explanation_noBracket {e : List Char}
    (he : ∀ c ∈ e, tameChar c = true ∨ c = '\n') :
    ∀ c ∈ e, c ≠ '}' ∧ c ≠ ']' := by
  intro c hc
  rcases he c hc with h2 | h2
  · exact ⟨(tameChar_props h2).2.2.2.2.1, (tameChar_props h2).2.2.2.2.2.2⟩
  · subst h2; exact ⟨by decide, by decide⟩

theorem stripTrailingCommas_renderDoc (d : ResultDoc) (h : TameDoc d) :
    stripTrailingCommas (renderDoc d) = renderDoc d :=
  stripTrailingCommas_of_safe
    (stripSafe_renderDoc_gen d _ h.1 h.2.1 (escNl_noBracket h.2.2))

theorem stripTrailingCommas_renderDocNl (d : ResultDoc) (h : TameDoc d) :
    stripTrailingCommas (renderDocNl d) = renderDocNl d :=
  stripTrailingCommas_of_safe
    (stripSafe_renderDoc_gen d _ h.1 h.2.1 (explanation_noBracket h.2.2))

theorem stripGo_tailTC (GE : List Char)
    (hsafe : stripSafe GE ('"' :: ',' :: '}' :: []))
    (hhead : splitWsBracket (GE ++ ('"' :: ',' :: '}' :: [])) = none) :
    stripTrailingCommasGo
        ((',' :: ']' :: ',' :: (GE ++ ('"' :: ',' :: '}' :: []))).length)
        (',' :: ']' :: ',' :: (GE ++ ('"' :: ',' :: '}' :: []))) =
      ']' :: ',' :: (GE ++ ('"' :: '}' :: [])) := by
  have hlen : (',' :: ']' :: ',' :: (GE ++ ('"' :: ',' :: '}' :: []))).length =
      (GE.length + 5) + 1 := by
    simp only [List.length_cons, List.length_append, List.length_nil]
    try omega
  rw [hlen, stripGo_cons_comma_bracket _ ']' _ (Or.inr rfl) (by decide),
    show GE.length + 5 = (GE.length + 4) + 1 from rfl,
    stripGo_cons_comma_none _ _ hhead,
    show GE.length + 4 = GE.length + 4 from rfl,
    stripGo_safe_append GE ('"' :: ',' :: '}' :: []) 4 hsafe,
    show stripTrailingCommasGo 4 ('"' :: ',' :: '}' :: []) = '"' :: '}' :: [] from by decide]

theorem stripTrailingCommas_renderDocTC (d : ResultDoc) (h : TameDoc d) :
    stripTrailingCommas (renderDocTC d) = renderDoc d := by
  obtain ⟨hv, hb, he⟩ := h
  have henb := escNl_noBracket he
  have hdoc : renderDocTC d = '{' :: (renderPre d ++ (',' :: ']' :: ',' ::
      (("\"explanation\":\"".data ++ escNl d.explanation) ++
        ('"' :: ',' :: '}' :: [])))) := by
    simp only [renderDocTC, renderMidTC, renderPre, List.append_assoc, List.cons_append,
      List.nil_append]
  have hsafeGE : stripSafe ("\"explanation\":\"".data ++ escNl d.explanation)
      ('"' :: ',' :: '}' :: []) :=
    stripSafe_append (stripSafe_noComma _ _ (by decide))
      (stripSafe_noBracket (escNl d.explanation) (',' :: '}' :: []) henb)
  rw [stripTrailingCommas, hdoc,
    show ('{' :: (renderPre d ++ (',' :: ']' :: ',' ::
        (("\"explanation\":\"".data ++ escNl d.explanation) ++
          ('"' :: ',' :: '}' :: []))))).length =
      ((renderPre d).length +
        (',' :: ']' :: ',' :: (("\"explanation\":\"".data ++ escNl d.explanation) ++
          ('"' :: ',' :: '}' :: []))).length) + 1 from by
      simp only [List.length_cons, List.length_append, List.length_nil]
      try omega,
    stripGo_cons_noncomma _ _ _ (by decide),
    stripGo_safe_append (renderPre d) _ _ (stripSafe_renderPre d hv hb _),
    stripGo_tailTC _ hsafeGE (splitWsBracket_quote_head rfl)]
  simp only [renderDoc, renderMid, renderPre, List.append_assoc, List.cons_append,
    List.nil_append]

/-! ## Parsing the rendered documents -/

theorem skipJsonWs_cons {c : Char} (r : List Char) (h : isJsonWs c = false) :
    skipJsonWs (c :: r) = c :: r := by
  rw [skipJsonWs, List.dropWhile_cons, if_neg (by simp [h])]

theorem takeWhile_append_stop (p : Char → Bool) : ∀ (l : List Char) (c0 : Char)
    (r0 : List Char), (∀ c ∈ l, p c = true) → p c0 = false →
    (l ++ c0 :: r0).takeWhile p = l ∧ (l ++ c0 :: r0).dropWhile p = c0 :: r0 := by
  intro l
  induction l with
  | nil =>
      intro c0 r0 _ hc
      rw [List.nil_append, List.takeWhile_cons, if_neg (by simp [hc]),
        List.dropWhile_cons, if_neg (by simp [hc])]
      exact ⟨rfl, rfl⟩
  | cons a l ih =>
      intro c0 r0 hall hc
      have hpa : p a = true := hall a (List.mem_cons_self a l)
      obtain ⟨h1, h2⟩ := ih c0 r0 (fun c hc2 => hall c (List.mem_cons_of_mem _ hc2)) hc
      rw [List.cons_append, List.takeWhile_cons, if_pos hpa, List.dropWhile_cons,
        if_pos hpa, h1, h2]
      exact ⟨rfl, rfl⟩

theorem parseStringBody_tame : ∀ (s acc r : List Char),
    (∀ c ∈ s, tameChar c = true) →
    parseStringBody (s ++ '"' :: r) acc = some (acc.reverse ++ s, r) := by
  intro s
  induction s with
  | nil =>
      intro acc r _
      rw [List.nil_append]
      rw [parseStringBody.eq_def]
      dsimp only
      rw [if_pos rfl]
      simp
  | cons a s ih =>
      intro acc r hall
      obtain ⟨h32, hdq, hbs, -, -, -, -⟩ := tameChar_props (hall a (List.mem_cons_self a s))
      rw [List.cons_append]
      rw [parseStringBody.eq_def]
      dsimp only
      rw [if_neg hdq, if_neg hbs, if_neg (by omega),
        ih (a :: acc) r (fun c hc => hall c (List.mem_cons_of_mem _ hc))]
      simp

theorem parseStringBody_escNl : ∀ (s acc r : List Char),
    (∀ c ∈ s, tameChar c = true ∨ c = '\n') →
    parseStringBody (escNl s ++ '"' :: r) acc = some (acc.reverse ++ s, r) := by
  intro s
  induction s with
  | nil =>
      intro acc r _
      rw [show escNl [] = [] from rfl, List.nil_append]
      rw [parseStringBody.eq_def]
      dsimp only
      rw [if_pos rfl]
      simp
  | cons a s ih =>
      intro acc r hall
      rw [show escNl (a :: s) = (if a = '\n' then ['\\', 'n'] else [a]) ++ escNl s from by
        simp [escNl]]
      by_cases hnl : a = '\n'
      · subst hnl
        rw [if_pos rfl, List.append_assoc, List.cons_append, List.cons_append,
          List.nil_append]
        rw [parseStringBody.eq_def]
        dsimp only
        rw [if_neg (by decide), if_pos rfl]
        rw [if_neg (by decide), if_neg (by decide), if_neg (by decide),
          if_neg (by decide), if_neg (by decide), if_pos rfl,
          ih ('\n' :: acc) r (fun c hc => hall c (List.mem_cons_of_mem _ hc))]
        simp
      · have hta := (hall a (List.mem_cons_self a s)).resolve_right hnl
        obtain ⟨h32, hdq, hbs, -, -, -, -⟩ := tameChar_props hta
        rw [if_neg hnl, List.append_assoc, List.cons_append, List.nil_append]
        rw [parseStringBody.eq_def]
        dsimp only
        rw [if_neg hdq, if_neg hbs, if_neg (by omega),
          ih (a :: acc) r (fun c hc => hall c (List.mem_cons_of_mem _ hc))]
        simp

theorem parseStringBody_nl_none : ∀ (s x acc : List Char),
    (∀ c ∈ s, tameChar c = true ∨ c = '\n') → '\n' ∈ s →
    parseStringBody (s ++ x) acc = none := by
  intro s
  induction s with
  | nil => intro x acc _ hm; exact absurd hm (by simp)
  | cons a s ih =>
      intro x acc hall hm
      by_cases hnl : a = '\n'
      · subst hnl
        rw [List.cons_append]
        rw [parseStringBody.eq_def]
        dsimp only
        rw [if_neg (by decide), if_neg (by decide), if_pos (by decide)]
      · have hta := (hall a (List.mem_cons_self a s)).resolve_right hnl
        obtain ⟨h32, hdq, hbs, -, -, -, -⟩ := tameChar_props hta
        have hm' : '\n' ∈ s := by
          rcases List.mem_cons.mp hm with h | h
          · exact absurd h.symm hnl
          · exact h
        rw [List.cons_append]
        rw [parseStringBody.eq_def]
        dsimp only
        rw [if_neg hdq, if_neg hbs, if_neg (by omega),
          ih x (a :: acc) (fun c hc => hall c (List.mem_cons_of_mem _ hc)) hm']

theorem parseNumber_natDigits (n : Nat) (r0 : List Char) :
    parseNumber (natDigits n ++ ',' :: r0) =
      some ((digitsToNat (natDigits n) : ℚ), ',' :: r0) := by
  obtain ⟨dc, drest, hnd, hall, h0, hpos⟩ := natDigits_spec n
  have hdigit : dc.isDigit = true := by
    rw [List.all_eq_true] at hall
    exact hall dc (List.mem_cons_self dc drest)
  have hdrest : ∀ c ∈ drest, c.isDigit = true := by
    rw [List.all_eq_true] at hall
    exact fun c hc => hall c (List.mem_cons_of_mem _ hc)
  have hmn : dc ≠ '-' := (digit_props hdigit).2.2.2.2.2.2.2.2.2.2.2.2.2.2
  rw [hnd, List.cons_append]
  by_cases hn0 : n = 0
  · obtain ⟨hdc, hdr⟩ := h0 hn0
    subst hdc
    subst hdr
    rw [List.nil_append]
    subst hn0
    simp [parseNumber, digitsToNat, natDigits]
  · have hdc0 : dc ≠ '0' := hpos (by omega)
    obtain ⟨htk, hdr⟩ := takeWhile_append_stop Char.isDigit drest ',' r0 hdrest (by decide)
    simp only [parseNumber]
    rw [if_neg hmn]
    dsimp only
    rw [if_neg hdc0, if_pos hdigit, htk, hdr]
    simp

theorem renderStrList_length : ∀ bs : List (List Char),
    bs.length ≤ (renderStrList bs).length := by
  intro bs
  induction bs with
  | nil => simp [renderStrList]
  | cons s rest ih =>
      cases rest with
      | nil => simp [renderStrList]
      | cons s2 r2 =>
          show (s :: s2 :: r2).length ≤ ('"' :: (s ++ '"' :: ',' :: renderStrList (s2 :: r2))).length
          simp only [List.length_cons, List.length_append] at ih ⊢
          omega

theorem parseValue_unfold (fuel : Nat) (c : Char) (cs : List Char) :
    parseValue (fuel + 1) (c :: cs) =
      (if c = '{' then
        parseObjectRest fuel (skipJsonWs cs) []
      else if c = '[' then
        parseArrayRest fuel (skipJsonWs cs) []
      else if c = '"' then
        match parseStringBody cs [] with
        | some (str, rest) => some (vStr str, rest)
        | none => none
      else if c = 't' then
        match cs with
        | c1 :: c2 :: c3 :: rest =>
            if c1 = 'r' ∧ c2 = 'u' ∧ c3 = 'e' then some (vBool true, rest) else none
        | _ => none
      else if c = 'f' then
        match cs with
        | c1 :: c2 :: c3 :: c4 :: rest =>
            if c1 = 'a' ∧ c2 = 'l' ∧ c3 = 's' ∧ c4 = 'e' then some (vBool false, rest)
            else none
        | _ => none
      else if c = 'n' then
        match cs with
        | c1 :: c2 :: c3 :: rest =>
            if c1 = 'u' ∧ c2 = 'l' ∧ c3 = 'l' then some (vNull, rest) else none
        | _ => none
      else if c = '-' ∨ c.isDigit then
        match parseNumber (c :: cs) with
        | some (q, rest) => some (vNum (JsNum.num q), rest)
        | none => none
      else none) := rfl

theorem parseObjectRest_unfold (fuel : Nat) (c : Char) (cs : List Char)
    (acc : List (List Char × JsVal)) :
    parseObjectRest (fuel + 1) (c :: cs) acc =
      (if c = '}' ∧ acc.isEmpty then some (vObj [], cs)
      else if c = '"' then
        match parseStringBody cs [] with
        | none => none
        | some (key, r1) =>
            match skipJsonWs r1 with
            | c2 :: r2 =>
                if c2 = ':' then
                  match parseValue fuel (skipJsonWs r2) with
                  | none => none
                  | some (v, r3) =>
                      let acc1 := objInsert acc key v
                      match skipJsonWs r3 with
                      | c4 :: r4 =>
                          if c4 = ',' then parseObjectRest fuel (skipJsonWs r4) acc1
                          else if c4 = '}' then some (vObj acc1, r4)
                          else none
                      | [] => none
                else none
            | [] => none
      else none) := rfl

theorem parseArrayRest_unfold (fuel : Nat) (c : Char) (cs : List Char)
    (acc : List JsVal) :
    parseArrayRest (fuel + 1) (c :: cs) acc =
      (if c = ']' ∧ acc.isEmpty then some (vArr [], cs)
      else
        match parseValue fuel (c :: cs) with
        | none => none
        | some (v, r1) =>
            match skipJsonWs r1 with
            | c2 :: r2 =>
                if c2 = ',' then parseArrayRest fuel (skipJsonWs r2) (acc ++ [v])
                else if c2 = ']' then some (vArr (acc ++ [v]), r2)
                else none
            | [] => none) := rfl

theorem parseValue_string (fuel : Nat) (s r : List Char)
    (hs : ∀ c ∈ s, tameChar c = true) :
    parseValue (fuel + 1) ('"' :: (s ++ '"' :: r)) = some (vStr s, r) := by
  rw [parseValue_unfold]
  rw [if_neg (by decide), if_neg (by decide), if_pos rfl,
    parseStringBody_tame s [] r hs]
  simp

theorem parseValue_number (fuel : Nat) (n : Nat) (r0 : List Char) :
    parseValue (fuel + 1) (natDigits n ++ ',' :: r0) =
      some (vNum (JsNum.num (digitsToNat (natDigits n) : ℚ)), ',' :: r0) := by
  obtain ⟨dc, drest, hnd, hall, -, -⟩ := natDigits_spec n
  have hdigit : dc.isDigit = true := by
    rw [List.all_eq_true] at hall
    exact hall dc (List.mem_cons_self dc drest)
  obtain ⟨-, -, hbr1, -, hsq1, -, -, hdq, -, -, -, ht, hf, hn, hmn⟩ := digit_props hdigit
  rw [hnd, List.cons_append, parseValue_unfold]
  rw [if_neg hbr1, if_neg hsq1, if_neg hdq, if_neg ht, if_neg hf, if_neg hn,
    if_pos (Or.inr hdigit), ← List.cons_append, ← hnd, parseNumber_natDigits n r0]

theorem parseArrayRest_render : ∀ (bs : List (List Char)) (acc : List JsVal) (f : Nat)
    (r : List Char), (∀ s ∈ bs, ∀ c ∈ s, tameChar c = true) → (bs = [] → acc = []) →
    parseArrayRest (f + bs.length + 1) (renderStrList bs ++ ']' :: r) acc =
      some (vArr (acc ++ bs.map vStr), r) := by
  intro bs
  induction bs with
  | nil =>
      intro acc f r _ hacc
      rw [hacc rfl, show renderStrList [] ++ ']' :: r = ']' :: r from rfl,
        show f + List.length ([] : List (List Char)) + 1 = f + 1 from rfl,
        parseArrayRest_unfold]
      rw [if_pos ⟨rfl, rfl⟩]
      simp
  | cons s rest ih =>
      intro acc f r hall hacc
      have hs : ∀ c ∈ s, tameChar c = true := hall s (List.mem_cons_self s rest)
      cases rest with
      | nil =>
          rw [show renderStrList [s] ++ ']' :: r = '"' :: (s ++ '"' :: (']' :: r)) from by
            show ('"' :: (s ++ ['"'])) ++ ']' :: r = _
            simp [List.append_assoc],
            show f + List.length [s] + 1 = (f + 1) + 1 from by simp,
            parseArrayRest_unfold]
          rw [if_neg (fun hc => absurd hc.1 (by decide)),
            parseValue_string f s (']' :: r) hs]
          dsimp only
          rw [skipJsonWs_cons _ (by decide)]
          dsimp only
          rw [if_neg (by decide), if_pos rfl]
          simp
      | cons s2 r2 =>
          have hsk : skipJsonWs (renderStrList (s2 :: r2) ++ ']' :: r) =
              renderStrList (s2 :: r2) ++ ']' :: r := by
            obtain ⟨X, hX⟩ := renderStrList_head_quote s2 r2
            rw [hX, List.cons_append, skipJsonWs_cons _ (by decide)]
          have ih' := ih (acc ++ [vStr s]) f r
            (fun t ht2 => hall t (List.mem_cons_of_mem _ ht2)) (fun h => absurd h (by simp))
          rw [show renderStrList (s :: s2 :: r2) ++ ']' :: r =
              '"' :: (s ++ '"' :: (',' :: (renderStrList (s2 :: r2) ++ ']' :: r))) from by
            show ('"' :: (s ++ '"' :: ',' :: renderStrList (s2 :: r2))) ++ ']' :: r = _
            simp [List.append_assoc],
            show f + List.length (s :: s2 :: r2) + 1 = (f + (s2 :: r2).length + 1) + 1 from by
              simp only [List.length_cons]
              try omega,
            parseArrayRest_unfold]
          rw [if_neg (fun hc => absurd hc.1 (by decide)),
            parseValue_string (f + (s2 :: r2).length) s
              (',' :: (renderStrList (s2 :: r2) ++ ']' :: r)) hs]
          dsimp only
          rw [skipJsonWs_cons _ (by decide)]
          dsimp only
          rw [if_pos rfl, hsk, ih']
          simp

theorem skipJsonWs_natDigits (n : Nat) (r : List Char) :
    skipJsonWs (natDigits n ++ r) = natDigits n ++ r := by
  obtain ⟨dc, drest, hnd, hall, -, -⟩ := natDigits_spec n
  have hdigit : dc.isDigit = true := by
    rw [List.all_eq_true] at hall
    exact hall dc (List.mem_cons_self dc drest)
  rw [hnd, List.cons_append, skipJsonWs_cons _ (digit_props hdigit).2.1]

theorem parseValue_array (f : Nat) (bs : List (List Char)) (r : List Char)
    (hb : ∀ s ∈ bs, ∀ c ∈ s, tameChar c = true) :
    parseValue ((f + bs.length + 1) + 1) ('[' :: (renderStrList bs ++ ']' :: r)) =
      some (vArr (bs.map vStr), r) := by
  rw [parseValue_unfold, if_neg (by decide), if_pos rfl]
  have hsk : skipJsonWs (renderStrList bs ++ ']' :: r) = renderStrList bs ++ ']' :: r := by
    cases bs with
    | nil =>
        rw [show renderStrList [] ++ ']' :: r = ']' :: r from rfl,
          skipJsonWs_cons _ (by decide)]
    | cons s rest =>
        obtain ⟨X, hX⟩ := renderStrList_head_quote s rest
        rw [hX, List.cons_append, skipJsonWs_cons _ (by decide)]
  rw [hsk, parseArrayRest_render bs [] f r hb (fun _ => rfl)]
  simp

theorem parseObjectRest_member (fuel : Nat) (key r1x : List Char)
    (acc : List (List Char × JsVal)) (hkey : ∀ c ∈ key, tameChar c = true) :
    parseObjectRest (fuel + 1) ('"' :: (key ++ '"' :: ':' :: r1x)) acc =
      (match parseValue fuel (skipJsonWs r1x) with
       | none => none
       | some (v, r3) =>
           match skipJsonWs r3 with
           | c4 :: r4 =>
               if c4 = ',' then parseObjectRest fuel (skipJsonWs r4) (objInsert acc key v)
               else if c4 = '}' then some (vObj (objInsert acc key v), r4)
               else none
           | [] => none) := by
  rw [parseObjectRest_unfold,
    if_neg (fun hc => absurd hc.1 (by decide)), if_pos rfl,
    parseStringBody_tame key [] (':' :: r1x) hkey]
  simp only [List.reverse_nil, List.nil_append]
  rw [skipJsonWs_cons _ (by decide)]
  dsimp only
  rw [if_pos rfl]

theorem parseValue_renderMid (d : ResultDoc) (X content : List Char)
    (hv : ∀ c ∈ d.verdict, tameChar c = true)
    (hb : ∀ s ∈ d.matchBullets, ∀ c ∈ s, tameChar c = true)
    (hX : parseStringBody (X ++ '"' :: '}' :: []) [] = some (content, '}' :: []) ∨
          parseStringBody (X ++ '"' :: '}' :: []) [] = none) (f : Nat) :
    parseValue ((f + d.matchBullets.length + 5) + 1) ('{' :: (renderMid d X ++ ['}'])) =
      match parseStringBody (X ++ '"' :: '}' :: []) [] with
      | some (c2, _) =>
          some (vObj [("score".data, vNum (JsNum.num (digitsToNat (natDigits d.score) : ℚ))),
            ("verdict".data, vStr d.verdict),
            ("matchBullets".data, vArr (d.matchBullets.map vStr)),
            ("explanation".data, vStr c2)], ([] : List Char))
      | none => none := by
  have hdoc : renderMid d X ++ ['}'] =
      '"' :: ("score".data ++ '"' :: ':' :: (natDigits d.score ++ ',' ::
        ('"' :: ("verdict".data ++ '"' :: ':' :: ('"' :: (d.verdict ++ '"' :: ',' ::
        ('"' :: ("matchBullets".data ++ '"' :: ':' :: ('[' ::
        (renderStrList d.matchBullets ++ ']' :: ',' ::
        ('"' :: ("explanation".data ++ '"' :: ':' :: ('"' ::
        (X ++ '"' :: '}' :: [])))))))))))))) := by
    simp [renderMid, List.append_assoc]
  rw [hdoc]
  rw [parseValue_unfold (f + d.matchBullets.length + 5)]
  rw [if_pos rfl]
  rw [skipJsonWs_cons _ (by decide)]
  rw [show f + d.matchBullets.length + 5 = (f + d.matchBullets.length + 4) + 1 from rfl]
  rw [parseObjectRest_member (f + d.matchBullets.length + 4) ("score".data) _ _ (by decide)]
  rw [skipJsonWs_natDigits]
  rw [show f + d.matchBullets.length + 4 = (f + d.matchBullets.length + 3) + 1 from rfl]
  rw [parseValue_number (f + d.matchBullets.length + 3) d.score]
  dsimp only
  rw [skipJsonWs_cons _ (by decide)]
  dsimp only
  rw [if_pos rfl]
  rw [skipJsonWs_cons _ (by decide)]
  rw [parseObjectRest_member (f + d.matchBullets.length + 3) ("verdict".data) _ _ (by decide)]
  rw [skipJsonWs_cons _ (by decide)]
  rw [show f + d.matchBullets.length + 3 = (f + d.matchBullets.length + 2) + 1 from rfl]
  rw [parseValue_string (f + d.matchBullets.length + 2) d.verdict _ hv]
  dsimp only
  rw [skipJsonWs_cons _ (by decide)]
  dsimp only
  rw [if_pos rfl]
  rw [skipJsonWs_cons _ (by decide)]
  rw [parseObjectRest_member (f + d.matchBullets.length + 2) ("matchBullets".data) _ _ (by decide)]
  rw [skipJsonWs_cons _ (by decide)]
  rw [show f + d.matchBullets.length + 2 = (f + d.matchBullets.length + 1) + 1 from rfl]
  rw [parseValue_array f d.matchBullets _ hb]
  dsimp only
  rw [skipJsonWs_cons _ (by decide)]
  dsimp only
  rw [if_pos rfl]
  rw [skipJsonWs_cons _ (by decide)]
  rw [parseObjectRest_member (f + d.matchBullets.length + 1) ("explanation".data) _ _ (by decide)]
  rw [skipJsonWs_cons _ (by decide)]
  rw [parseValue_unfold (f + d.matchBullets.length)]
  rw [if_neg (by decide), if_neg (by decide), if_pos rfl]
  rcases hX with hX1 | hX1
  · rw [hX1]
    dsimp only
    rw [skipJsonWs_cons _ (by decide)]
    dsimp only
    rw [if_neg (by decide), if_pos rfl]
    simp [objInsert]
  · rw [hX1]

theorem jsonParse_renderMid (d : ResultDoc) (X content : List Char)
    (hv : ∀ c ∈ d.verdict, tameChar c = true)
    (hb : ∀ s ∈ d.matchBullets, ∀ c ∈ s, tameChar c = true)
    (hX : parseStringBody (X ++ '"' :: '}' :: []) [] = some (content, '}' :: []) ∨
          parseStringBody (X ++ '"' :: '}' :: []) [] = none) :
    jsonParse ('{' :: (renderMid d X ++ ['}'])) =
      match parseStringBody (X ++ '"' :: '}' :: []) [] with
      | some (c2, _) =>
          some (vObj [("score".data, vNum (JsNum.num (digitsToNat (natDigits d.score) : ℚ))),
            ("verdict".data, vStr d.verdict),
            ("matchBullets".data, vArr (d.matchBullets.map vStr)),
            ("explanation".data, vStr c2)])
      | none => none := by
  have hbound : d.matchBullets.length + 5 ≤ ('{' :: (renderMid d X ++ ['}'])).length := by
    have h1 := renderStrList_length d.matchBullets
    simp only [renderMid, List.length_cons, List.length_append]
    simp
    omega
  simp only [jsonParse]
  rw [skipJsonWs_cons _ (by decide)]
  rw [show ('{' :: (renderMid d X ++ ['}'])).length + 1 =
      ((('{' :: (renderMid d X ++ ['}'])).length - d.matchBullets.length - 5) +
        d.matchBullets.length + 5) + 1 from by omega]
  rw [parseValue_renderMid d X content hv hb hX
    (('{' :: (renderMid d X ++ ['}'])).length - d.matchBullets.length - 5)]
  rcases hX with hX1 | hX1
  · rw [hX1]
    simp [skipJsonWs]
  · rw [hX1]

/-! ## The newline repair on the rendered documents -/

theorem escNl_eq_self {s : List Char} (h : ∀ c ∈ s, c ≠ '\n') : escNl s = s := by
  induction s with
  | nil => rfl
  | cons a s ih =>
      rw [show escNl (a :: s) = (if a = '\n' then ['\\', 'n'] else [a]) ++ escNl s from by
          simp [escNl],
        if_neg (h a (List.mem_cons_self a s)),
        ih (fun c hc => h c (List.mem_cons_of_mem _ hc))]
      rfl

theorem escNl_tame {s : List Char} (h : ∀ c ∈ s, tameChar c = true) : escNl s = s :=
  escNl_eq_self (fun c hc => fun hnl => by
    subst hnl
    exact absurd (tameChar_props (h _ hc)).1 (by decide))

theorem fixNewlinesGo_glue (g rest : List Char)
    (hg : ∀ c ∈ g, c ≠ '"' ∧ c ≠ '\\') :
    fixNewlinesGo (g ++ rest).length (g ++ rest) false false =
      g ++ fixNewlinesGo rest.length rest false false := by
  have aux : ∀ (g2 rest2 : List Char) (f : Nat), (∀ c ∈ g2, c ≠ '"' ∧ c ≠ '\\') →
      fixNewlinesGo (g2.length + f) (g2 ++ rest2) false false =
        g2 ++ fixNewlinesGo f rest2 false false := by
    intro g2
    induction g2 with
    | nil => intro rest2 f _; simp
    | cons c gs ih =>
        intro rest2 f h
        obtain ⟨h1, h2⟩ := h c (List.mem_cons_self c gs)
        rw [show (c :: gs).length + f = (gs.length + f) + 1 from by
            simp only [List.length_cons]
            omega,
          List.cons_append, fixNewlinesGo.eq_def]
        dsimp only
        rw [if_neg (by decide), if_neg h2, if_neg (by decide), if_neg h1,
          ih rest2 f (fun x hx => h x (List.mem_cons_of_mem _ hx))]
        rfl
  rw [List.length_append]
  exact aux g rest rest.length hg

theorem fixNewlinesGo_quoted_aux : ∀ (s rest : List Char) (f : Nat),
    (∀ c ∈ s, tameChar c = true ∨ c = '\n') →
    fixNewlinesGo (s.length + (f + 1)) (s ++ '"' :: rest) true false =
      escNl s ++ '"' :: fixNewlinesGo f rest false false := by
  intro s
  induction s with
  | nil =>
      intro rest f _
      rw [show ([] : List Char).length + (f + 1) = f + 1 from by simp, List.nil_append,
        fixNewlinesGo.eq_def]
      dsimp only
      rw [if_neg (by decide), if_neg (by decide), if_pos rfl, if_pos rfl]
      rfl
  | cons a s ih =>
      intro rest f hall
      rw [show (a :: s).length + (f + 1) = (s.length + (f + 1)) + 1 from by
          simp only [List.length_cons]
          omega,
        List.cons_append, fixNewlinesGo.eq_def]
      dsimp only
      by_cases hnl : a = '\n'
      · subst hnl
        rw [if_neg (by decide), if_neg (by decide), if_pos rfl, if_neg (by decide),
          if_pos rfl, ih rest f (fun c hc => hall c (List.mem_cons_of_mem _ hc))]
        simp [escNl]
      · have hta := (hall a (List.mem_cons_self a s)).resolve_right hnl
        obtain ⟨h32, hdq, hbs, -, -, -, -⟩ := tameChar_props hta
        have hncr : a ≠ '\r' := fun h => by
          subst h
          exact absurd h32 (by decide)
        rw [if_neg (by decide), if_neg hbs, if_pos rfl, if_neg hdq, if_neg hnl,
          if_neg hncr, ih rest f (fun c hc => hall c (List.mem_cons_of_mem _ hc))]
        rw [show escNl (a :: s) = a :: escNl s from by simp [escNl, hnl]]
        rfl

theorem fixNewlinesGo_quoted (s rest : List Char)
    (hs : ∀ c ∈ s, tameChar c = true ∨ c = '\n') :
    fixNewlinesGo ('"' :: (s ++ '"' :: rest)).length ('"' :: (s ++ '"' :: rest))
        false false =
      '"' :: (escNl s ++ '"' :: fixNewlinesGo rest.length rest false false) := by
  rw [show ('"' :: (s ++ '"' :: rest)).length = (s.length + (rest.length + 1)) + 1 from by
      simp only [List.length_cons, List.length_append]
      try omega,
    fixNewlinesGo.eq_def]
  dsimp only
  rw [if_neg (by decide), if_neg (by decide), if_neg (by decide), if_pos rfl,
    fixNewlinesGo_quoted_aux s rest rest.length hs]

theorem fixNewlinesGo_bullets : ∀ (bs : List (List Char)) (rest : List Char),
    (∀ s ∈ bs, ∀ c ∈ s, tameChar c = true) →
    fixNewlinesGo (renderStrList bs ++ rest).length (renderStrList bs ++ rest)
        false false =
      renderStrList bs ++ fixNewlinesGo rest.length rest false false := by
  intro bs
  induction bs with
  | nil => intro rest _; simp [renderStrList]
  | cons s rest2 ih =>
      intro rest hall
      have hs := hall s (List.mem_cons_self s rest2)
      have hsnl : ∀ c ∈ s, tameChar c = true ∨ c = '\n' := fun c hc => Or.inl (hs c hc)
      have hesc : escNl s = s := escNl_tame hs
      cases rest2 with
      | nil =>
          rw [show renderStrList [s] ++ rest = '"' :: (s ++ '"' :: rest) from by
            show ('"' :: (s ++ ['"'])) ++ rest = _
            simp [List.append_assoc]]
          rw [fixNewlinesGo_quoted s rest hsnl, hesc]
          show _ = ('"' :: (s ++ ['"'])) ++ _
          simp [List.append_assoc]
      | cons s2 r2 =>
          rw [show renderStrList (s :: s2 :: r2) ++ rest =
              '"' :: (s ++ '"' :: ([','] ++ (renderStrList (s2 :: r2) ++ rest))) from by
            show ('"' :: (s ++ '"' :: ',' :: renderStrList (s2 :: r2))) ++ rest = _
            simp [List.append_assoc]]
          rw [fixNewlinesGo_quoted s _ hsnl, hesc,
            fixNewlinesGo_glue [','] _ (by decide),
            ih rest (fun t ht => hall t (List.mem_cons_of_mem _ ht))]
          show _ = ('"' :: (s ++ '"' :: ',' :: renderStrList (s2 :: r2))) ++ _
          simp [List.append_assoc]

theorem fixNewlines_renderDoc_gen (d : ResultDoc) (X : List Char)
    (hv : ∀ c ∈ d.verdict, tameChar c = true)
    (hb : ∀ s ∈ d.matchBullets, ∀ c ∈ s, tameChar c = true)
    (hX : ∀ c ∈ X, tameChar c = true ∨ c = '\n') :
    fixNewlinesInsideJsonStrings ('{' :: (renderMid d X ++ ['}'])) =
      '{' :: (renderMid d (escNl X) ++ ['}']) := by
  have hvnl : ∀ c ∈ d.verdict, tameChar c = true ∨ c = '\n' := fun c hc => Or.inl (hv c hc)
  have hglue2 : ∀ c ∈ [':'] ++ (natDigits d.score ++ [',']), c ≠ '"' ∧ c ≠ '\\' := by
    intro c hc
    rcases List.mem_append.mp hc with h | h
    · simp only [List.mem_singleton] at h
      subst h
      exact ⟨by decide, by decide⟩
    · rcases List.mem_append.mp h with h2 | h2
      · exact ⟨(digit_props (natDigits_mem h2)).2.2.2.2.2.2.2.1,
          (digit_props (natDigits_mem h2)).2.2.2.2.2.2.2.2.1⟩
      · simp only [List.mem_singleton] at h2
        subst h2
        exact ⟨by decide, by decide⟩
  have hdocF : '{' :: (renderMid d X ++ ['}']) =
      ['{'] ++ ('"' :: ("score".data ++ '"' :: (([':'] ++ (natDigits d.score ++ [','])) ++ ('"' :: ("verdict".data ++ '"' :: ([':'] ++ ('"' :: (d.verdict ++ '"' :: ([','] ++ ('"' :: ("matchBullets".data ++ '"' :: (([':', '[']) ++ (renderStrList d.matchBullets ++ (([']', ',']) ++ ('"' :: ("explanation".data ++ '"' :: ([':'] ++ ('"' :: (X ++ '"' :: ['}']))))))))))))))))))) := by
    simp [renderMid, List.append_assoc]
  rw [fixNewlinesInsideJsonStrings, hdocF,
    fixNewlinesGo_glue ['{'] _ (by decide),
    fixNewlinesGo_quoted ("score".data) _ (by decide),
    fixNewlinesGo_glue ([':'] ++ (natDigits d.score ++ [','])) _ hglue2,
    fixNewlinesGo_quoted ("verdict".data) _ (by decide),
    fixNewlinesGo_glue [':'] _ (by decide),
    fixNewlinesGo_quoted d.verdict _ hvnl,
    fixNewlinesGo_glue [','] _ (by decide),
    fixNewlinesGo_quoted ("matchBullets".data) _ (by decide),
    fixNewlinesGo_glue [':', '['] _ (by decide),
    fixNewlinesGo_bullets d.matchBullets _ hb,
    fixNewlinesGo_glue [']', ','] _ (by decide),
    fixNewlinesGo_quoted ("explanation".data) _ (by decide),
    fixNewlinesGo_glue [':'] _ (by decide),
    fixNewlinesGo_quoted X _ hX,
    show fixNewlinesGo (['}'] : List Char).length ['}'] false false = ['}'] from by decide,
    escNl_tame hv,
    show escNl ("score".data) = "score".data from by decide,
    show escNl ("verdict".data) = "verdict".data from by decide,
    show escNl ("matchBullets".data) = "matchBullets".data from by decide,
    show escNl ("explanation".data) = "explanation".data from by decide]
  simp [renderMid, List.append_assoc]

/-! ## Assembly: the three variants through the full pipeline -/

/-- The JavaScript object produced by parsing a rendered result
document. -/
def docObj (d : ResultDoc) : JsVal :=
  vObj [("score".data, vNum (JsNum.num (digitsToNat (natDigits d.score) : ℚ))),
    ("verdict".data, vStr d.verdict),
    ("matchBullets".data, vArr (d.matchBullets.map vStr)),
    ("explanation".data, vStr d.explanation)]

theorem escNl_braceFree {e : List Char}
    (he : ∀ c ∈ e, tameChar c = true ∨ c = '\n') :
    ∀ c ∈ escNl e, c ≠ '{' ∧ c ≠ '}' := by
  intro c hc
  rcases escNl_mem hc with h1 | h1 | h1
  · subst h1; exact ⟨by decide, by decide⟩
  · subst h1; exact ⟨by decide, by decide⟩
  · rcases he c h1 with h2 | h2
    · exact ⟨(tameChar_props h2).2.2.2.1, (tameChar_props h2).2.2.2.2.1⟩
    · subst h2; exact ⟨by decide, by decide⟩

theorem explanation_braceFree {e : List Char}
    (he : ∀ c ∈ e, tameChar c = true ∨ c = '\n') :
    ∀ c ∈ e, c ≠ '{' ∧ c ≠ '}' := by
  intro c hc
  rcases he c hc with h2 | h2
  · exact ⟨(tameChar_props h2).2.2.2.1, (tameChar_props h2).2.2.2.2.1⟩
  · subst h2; exact ⟨by decide, by decide⟩

theorem renderMidTC_braceFree (d : ResultDoc)
    (hv : ∀ c ∈ d.verdict, tameChar c = true)
    (hb : ∀ s ∈ d.matchBullets, ∀ c ∈ s, tameChar c = true)
    (he : ∀ c ∈ escNl d.explanation, c ≠ '{' ∧ c ≠ '}') :
    ∀ c ∈ renderMidTC d, c ≠ '{' ∧ c ≠ '}' := by
  simp only [renderMidTC, List.forall_mem_append, List.forall_mem_cons]
  repeat' apply And.intro
  all_goals first
    | decide
    | exact fun c hc => ⟨(digit_props (natDigits_mem hc)).2.2.1,
        (digit_props (natDigits_mem hc)).2.2.2.1⟩
    | exact fun c hc => ⟨(tameChar_props (hv c hc)).2.2.2.1,
        (tameChar_props (hv c hc)).2.2.2.2.1⟩
    | exact fun c hc => he c hc
    | exact fun c hc => by
        rcases renderStrList_mem d.matchBullets c hc with h1 | h1 | ⟨s, hs, h1⟩
        · subst h1; exact ⟨by decide, by decide⟩
        · subst h1; exact ⟨by decide, by decide⟩
        · exact ⟨(tameChar_props (hb s hs c h1)).2.2.2.1,
            (tameChar_props (hb s hs c h1)).2.2.2.2.1⟩

theorem jsTrim_sandwich (Y : List Char) :
    jsTrim ('{' :: (Y ++ ['}'])) = '{' :: (Y ++ ['}']) := by
  refine jsTrim_eq_self ⟨'{', rfl, by decide⟩ ⟨'}', ?_, by decide⟩
  rw [show '{' :: (Y ++ ['}']) = ('{' :: Y) ++ ['}'] from by simp,
    List.getLast?_append]
  rfl

theorem parseJsonFromResponse_pipeline (text cleaned : List Char)
    (h1 : jsTrim text = text) (h2 : fenceMatch text = none)
    (h3 : braceSlice text = text) (h4 : stripTrailingCommas text = cleaned) :
    parseJsonFromResponse text =
      (match tryRepairsGo repairOrder cleaned with
       | some parsed => Except.ok parsed
       | none =>
           match extractResultFromBrokenJson cleaned with
           | some fallback => Except.ok fallback
           | none => Except.error invalidJsonMsg) := by
  simp only [parseJsonFromResponse, h1, h2, h3, h4]

theorem jsonParse_renderDoc (d : ResultDoc) (h : TameDoc d) :
    jsonParse (renderDoc d) = some (docObj d) := by
  have hps : parseStringBody (escNl d.explanation ++ '"' :: '}' :: []) [] =
      some (d.explanation, '}' :: []) := by
    have h0 := parseStringBody_escNl d.explanation [] ('}' :: []) h.2.2
    simpa using h0
  have h1 := jsonParse_renderMid d (escNl d.explanation) d.explanation h.1 h.2.1
    (Or.inl hps)
  rw [hps] at h1
  rw [show renderDoc d = '{' :: (renderMid d (escNl d.explanation) ++ ['}']) from rfl, h1,
    docObj]

theorem jsonParse_renderDocNl_none (d : ResultDoc) (h : TameDoc d)
    (hmem : '\n' ∈ d.explanation) : jsonParse (renderDocNl d) = none := by
  have hps : parseStringBody (d.explanation ++ '"' :: '}' :: []) [] = none :=
    parseStringBody_nl_none d.explanation ('"' :: '}' :: []) [] h.2.2 hmem
  have h1 := jsonParse_renderMid d d.explanation d.explanation h.1 h.2.1 (Or.inr hps)
  rw [hps] at h1
  rw [show renderDocNl d = '{' :: (renderMid d d.explanation ++ ['}']) from rfl, h1]

theorem docObj_hasKey (d : ResultDoc) : jsHasKey (docObj d) "verdict".data = true := by
  simp [docObj, jsHasKey, objLookup]

theorem tryRepairs_renderDoc (d : ResultDoc) (h : TameDoc d) :
    tryRepairsGo repairOrder (renderDoc d) = some (attachExtraInfo (docObj d)) := by
  show tryRepairsGo (id :: [fixNewlinesInsideJsonStrings, coerceSmartQuotes,
    coerceSingleQuotes]) (renderDoc d) = _
  rw [tryRepairsGo, show id (renderDoc d) = renderDoc d from rfl,
    jsonParse_renderDoc d h]
  dsimp only
  rw [if_pos (docObj_hasKey d)]

theorem tryRepairs_renderDocNl (d : ResultDoc) (h : TameDoc d)
    (hmem : '\n' ∈ d.explanation) :
    tryRepairsGo repairOrder (renderDocNl d) = some (attachExtraInfo (docObj d)) := by
  have hfix : fixNewlinesInsideJsonStrings (renderDocNl d) = renderDoc d :=
    fixNewlines_renderDoc_gen d d.explanation h.1 h.2.1 h.2.2
  show tryRepairsGo (id :: [fixNewlinesInsideJsonStrings, coerceSmartQuotes,
    coerceSingleQuotes]) (renderDocNl d) = _
  rw [tryRepairsGo, show id (renderDocNl d) = renderDocNl d from rfl,
    jsonParse_renderDocNl_none d h hmem]
  dsimp only
  rw [tryRepairsGo, hfix, jsonParse_renderDoc d h]
  dsimp only
  rw [if_pos (docObj_hasKey d)]

theorem jsTrim_renderDoc (d : ResultDoc) : jsTrim (renderDoc d) = renderDoc d := by
  rw [renderDoc]
  exact jsTrim_sandwich _

theorem jsTrim_renderDocNl (d : ResultDoc) : jsTrim (renderDocNl d) = renderDocNl d := by
  rw [renderDocNl]
  exact jsTrim_sandwich _

theorem jsTrim_renderDocTC (d : ResultDoc) : jsTrim (renderDocTC d) = renderDocTC d := by
  rw [renderDocTC]
  exact jsTrim_sandwich _

theorem braceSlice_renderDoc (d : ResultDoc) (h : TameDoc d) :
    braceSlice (renderDoc d) = renderDoc d := by
  rw [renderDoc]
  exact braceSlice_sandwich _ (renderMid_braceFree d _ h.1 h.2.1 (escNl_braceFree h.2.2))

theorem braceSlice_renderDocNl (d : ResultDoc) (h : TameDoc d) :
    braceSlice (renderDocNl d) = renderDocNl d := by
  rw [renderDocNl]
  exact braceSlice_sandwich _
    (renderMid_braceFree d _ h.1 h.2.1 (explanation_braceFree h.2.2))

theorem braceSlice_renderDocTC (d : ResultDoc) (h : TameDoc d) :
    braceSlice (renderDocTC d) = renderDocTC d := by
  rw [renderDocTC]
  exact braceSlice_sandwich _
    (renderMidTC_braceFree d h.1 h.2.1 (escNl_braceFree h.2.2))

/-- Claim C7 (amended): feeding the parser a reply wrapped in markdown
code fences yields the identical result as the bare reply, for every
trimmed reply that opens with a brace; and on every result document whose
verdict and bullet strings are plain text and whose explanation is plain
text with optional newlines, adding trailing commas before the closing
brackets, or embedding the explanation newlines literally, yields the
identical result (hence identical normalized result) as the minimal valid
JSON text. (Without the plain-text restriction the original claim is
refuted by the separate counterexamples.) -/
theorem parseJsonFromResponse_variants_spec :
    (∀ t : List Char, t.head? = some '{' → jsTrim t = t →
      parseJsonFromResponse (fenceWrap t) = parseJsonFromResponse t) ∧
    (∀ d : ResultDoc, TameDoc d →
      parseJsonFromResponse (renderDocTC d) = parseJsonFromResponse (renderDoc d)) ∧
    (∀ d : ResultDoc, TameDoc d →
      parseJsonFromResponse (renderDocNl d) = parseJsonFromResponse (renderDoc d)) := by
  refine ⟨fun t ht htr => parse_fenceWrap_eq t ht htr, fun d hd => ?_, fun d hd => ?_⟩
  · rw [parseJsonFromResponse_pipeline (renderDocTC d) (renderDoc d)
        (jsTrim_renderDocTC d) (fenceMatch_brace _ rfl) (braceSlice_renderDocTC d hd)
        (stripTrailingCommas_renderDocTC d hd),
      parseJsonFromResponse_pipeline (renderDoc d) (renderDoc d)
        (jsTrim_renderDoc d) (fenceMatch_brace _ rfl) (braceSlice_renderDoc d hd)
        (stripTrailingCommas_renderDoc d hd)]
  · by_cases hmem : '\n' ∈ d.explanation
    · rw [parseJsonFromResponse_pipeline (renderDocNl d) (renderDocNl d)
          (jsTrim_renderDocNl d) (fenceMatch_brace _ rfl) (braceSlice_renderDocNl d hd)
          (stripTrailingCommas_renderDocNl d hd),
        parseJsonFromResponse_pipeline (renderDoc d) (renderDoc d)
          (jsTrim_renderDoc d) (fenceMatch_brace _ rfl) (braceSlice_renderDoc d hd)
          (stripTrailingCommas_renderDoc d hd),
        tryRepairs_renderDocNl d hd hmem, tryRepairs_renderDoc d hd]
    · rw [show renderDocNl d = renderDoc d from by
        rw [renderDocNl, renderDoc, escNl_eq_self (fun c hc h => hmem (h ▸ hc))]]

/-- A concrete tame result document (with a newline inside the
explanation) for the witness. -/
def c7WitnessDoc : ResultDoc :=
  ⟨87, "worth".data, ["skills match".data, "remote ok".data],
    ('g' :: 'o' :: 'o' :: 'd' :: '\n' :: 'f' :: 'i' :: 't' :: [])⟩

theorem parseJsonFromResponse_variants_spec_witness :
    (("{}".data).head? = some '{' ∧ jsTrim "{}".data = "{}".data ∧
      parseJsonFromResponse (fenceWrap "{}".data) = parseJsonFromResponse "{}".data) ∧
    (TameDoc c7WitnessDoc ∧
      parseJsonFromResponse (renderDocTC c7WitnessDoc) =
        parseJsonFromResponse (renderDoc c7WitnessDoc) ∧
      parseJsonFromResponse (renderDocNl c7WitnessDoc) =
        parseJsonFromResponse (renderDoc c7WitnessDoc)) :=
  ⟨⟨by decide, by decide,
      parseJsonFromResponse_variants_spec.1 ("{}".data) (by decide) (by decide)⟩,
    ⟨by decide,
      parseJsonFromResponse_variants_spec.2.1 c7WitnessDoc (by decide),
      parseJsonFromResponse_variants_spec.2.2 c7WitnessDoc (by decide)⟩⟩

end JobEval
